import Mathlib

/-!
# turtlequote: shell-style quoting and unquoting

A shallow embedding of `turtlequote.go` (`Escape`, `escapeUnicode`, `Unescape`,
`parseUnicodeSeq`) together with the pieces of the Go standard library they call
(`unicode.IsSpace`, `unicode.In`, `strconv.QuoteRune`, `strings.Trim`,
`strconv.UnquoteChar`).

Modelling conventions.

* A Go string holding well-formed UTF-8 is the list of its code points (`Str`).
  `len(s)` of a Go string is its length in bytes, `utf8Len`; `len(sr)` of a rune
  slice is the length of the list.
* A position in a rune slice is carried as the index `i` together with the
  suffix `sr[i:]`, so that `sr[i]` is the head of the suffix and `len(sr)` is
  `i + len(suffix)`.
* A run-time panic (index out of range) is the outcome `Outcome.panic`, which is
  different from a returned error.
* The range tables of the standard library that depend on the Go release and reach
  beyond Latin-1 (the printable code points of `strconv`, the unassigned code points
  of `unicode.Other`) are the parameter `Tables`; the theorems hold for every table.
-/

set_option autoImplicit false

namespace Turtlequote

/-- Code-point sequence of a well-formed Go string. -/
abbrev Str := List Char

/-- The single quote U+0027. -/
def squote : Char := Char.ofNat 39
/-- The double quote U+0022. -/
def dquote : Char := Char.ofNat 34
/-- The backslash U+005C. -/
def bslash : Char := Char.ofNat 92
/-- The backtick U+0060. -/
def btick : Char := Char.ofNat 96
/-- The dollar sign U+0024. -/
def dollar : Char := Char.ofNat 36
/-- The space U+0020. -/
def space : Char := Char.ofNat 32
/-- The ampersand U+0026. -/
def amp : Char := Char.ofNat 38
/-- The opening brace U+007B. -/
def lbrace : Char := Char.ofNat 123
/-- The closing brace U+007D. -/
def rbrace : Char := Char.ofNat 125

/-! ## Go standard library -/

/-- Number of bytes of the UTF-8 encoding of a code point (`utf8.RuneLen`). -/
def runeLen (c : Char) : Nat :=
  if c.toNat < 0x80 then 1
  else if c.toNat < 0x800 then 2
  else if c.toNat < 0x10000 then 3
  else 4

/-- Byte length of a Go string, `len(s)`. -/
def utf8Len : Str → Nat
  | [] => 0
  | c :: cs => runeLen c + utf8Len cs

/-- Membership of a code point in the closed range `lo..hi`. -/
def inRange (lo hi : Nat) (c : Char) : Bool :=
  decide (lo ≤ c.toNat) && decide (c.toNat ≤ hi)

/-- The function `unicode.IsSpace`: the Latin-1 switch, then the `White_Space` table. -/
def isSpace (c : Char) : Bool :=
  if c.toNat ≤ 0xFF then
    c.toNat = 0x09 || c.toNat = 0x0A || c.toNat = 0x0B || c.toNat = 0x0C || c.toNat = 0x0D
      || c.toNat = 0x20 || c.toNat = 0x85 || c.toNat = 0xA0
  else
    c.toNat = 0x1680 || inRange 0x2000 0x200A c || inRange 0x2028 0x2029 c
      || c.toNat = 0x202F || c.toNat = 0x205F || c.toNat = 0x3000

/-- Table `unicode.Zl` (line separator). -/
def isZl (c : Char) : Bool := c.toNat = 0x2028

/-- Table `unicode.Zp` (paragraph separator). -/
def isZp (c : Char) : Bool := c.toNat = 0x2029

/-- Table `unicode.Zs` (space separator). -/
def isZs (c : Char) : Bool :=
  c.toNat = 0x20 || c.toNat = 0xA0 || c.toNat = 0x1680 || inRange 0x2000 0x200A c
    || c.toNat = 0x202F || c.toNat = 0x205F || c.toNat = 0x3000

/-- Table `unicode.Cc` (control). -/
def isCc (c : Char) : Bool := inRange 0x00 0x1F c || inRange 0x7F 0x9F c

/-- Table `unicode.Cf` (format), Unicode 15.0. -/
def isCf (c : Char) : Bool :=
  c.toNat = 0xAD || inRange 0x600 0x605 c || c.toNat = 0x61C || c.toNat = 0x6DD
    || c.toNat = 0x70F || inRange 0x890 0x891 c || c.toNat = 0x8E2 || c.toNat = 0x180E
    || inRange 0x200B 0x200F c || inRange 0x202A 0x202E c || inRange 0x2060 0x2064 c
    || inRange 0x2066 0x206F c || c.toNat = 0xFEFF || inRange 0xFFF9 0xFFFB c
    || c.toNat = 0x110BD || c.toNat = 0x110CD || inRange 0x13430 0x1343F c
    || inRange 0x1BCA0 0x1BCA3 c || inRange 0x1D173 0x1D17A c || c.toNat = 0xE0001
    || inRange 0xE0020 0xE007F c

/-- Table `unicode.Co` (private use). -/
def isCo (c : Char) : Bool :=
  inRange 0xE000 0xF8FF c || inRange 0xF0000 0xFFFFD c || inRange 0x100000 0x10FFFD c

/-- The range tables of the Go standard library that `Escape` consults above Latin-1 and
that change from one Go release to the next. They are not part of this repository. -/
structure Tables where
  /-- The tables of `strconv.IsPrint` above Latin-1. -/
  printable : Char → Bool
  /-- The unassigned code points (category Cn) that `unicode.Other` holds: all of them
  since Go 1.25, none before. -/
  unassigned : Char → Bool

/-- Table `unicode.Other` (`unicode.C`): Cc, Cf, Co, Cs and, since Go 1.25, the unassigned
code points Cn. The surrogates Cs are not code points of a well-formed string. No code
point of Latin-1 is unassigned, so the table of unassigned code points counts above
Latin-1 only. -/
def isOther (tbl : Tables) (c : Char) : Bool :=
  isCc c || isCf c || isCo c || (decide (0xFF < c.toNat) && tbl.unassigned c)

/-- The test `unicode.In(c, unicode.Zl, unicode.Zp, unicode.Zs, unicode.Other)`. -/
def inSepOther (tbl : Tables) (c : Char) : Bool :=
  isZl c || isZp c || isZs c || isOther tbl c

/-- The third `case` of both switches in `Escape`:
`unicode.IsSpace(c), unicode.In(c, unicode.Zl, unicode.Zp, unicode.Zs, unicode.Other)`. -/
def needsEscape (tbl : Tables) (c : Char) : Bool := isSpace c || inSepOther tbl c

/-- The function `strconv.IsPrint`: explicit code on Latin-1, range tables above it.
The tables are not part of this repository and come with the parameter `tbl`. -/
def IsPrint (tbl : Tables) (r : Char) : Bool :=
  if r.toNat ≤ 0xFF then
    if 0x20 ≤ r.toNat ∧ r.toNat ≤ 0x7E then true
    else if 0xA1 ≤ r.toNat then decide (r.toNat ≠ 0xAD)
    else false
  else tbl.printable r

/-- The digit table `lowerhex` of `strconv`, indexed by a value below 16. -/
def lowerhex (n : Nat) : Char :=
  "0123456789abcdef".toList.getD n '0'

/-- The loop `for s := 4*(k-1); s >= 0; s -= 4 { lowerhex[r>>s & 0xF] }`:
`k` hexadecimal digits of `r`, most significant first, zero padded. -/
def hexFixed : Nat → Nat → Str
  | 0, _ => []
  | k + 1, r => lowerhex (r / 16 ^ k % 16) :: hexFixed k r

/-- The function `strconv.appendEscapedRune` for quote `'`, without the ASCII-only and
graphic-only options: the text `strconv.QuoteRune` puts between the quotes. -/
def escapedRune (tbl : Tables) (r : Char) : Str :=
  if r = squote ∨ r = bslash then [bslash, r]
  else if IsPrint tbl r then [r]
  else if r.toNat = 0x07 then [bslash, 'a']
  else if r.toNat = 0x08 then [bslash, 'b']
  else if r.toNat = 0x0C then [bslash, 'f']
  else if r.toNat = 0x0A then [bslash, 'n']
  else if r.toNat = 0x0D then [bslash, 'r']
  else if r.toNat = 0x09 then [bslash, 't']
  else if r.toNat = 0x0B then [bslash, 'v']
  else if r.toNat < 0x20 ∨ r.toNat = 0x7F then bslash :: 'x' :: hexFixed 2 r.toNat
  else if r.toNat < 0x10000 then bslash :: 'u' :: hexFixed 4 r.toNat
  else bslash :: 'U' :: hexFixed 8 r.toNat

/-- The function `strconv.QuoteRune`. -/
def QuoteRune (tbl : Tables) (r : Char) : Str :=
  squote :: escapedRune tbl r ++ [squote]

/-- The function `strings.Trim(s, cutset)` for a one-character cutset. -/
def Trim (s : Str) (cut : Char) : Str :=
  (s.dropWhile (fun c => decide (c = cut))).rdropWhile (fun c => decide (c = cut))

/-- The byte slice `s[n:]` of a Go string: `none` when `n` is past the end (a panic)
or falls inside a code point (the result is then not well-formed UTF-8). -/
def sliceFrom : Str → Nat → Option Str
  | s, 0 => some s
  | [], _ + 1 => none
  | c :: cs, n + 1 => if runeLen c ≤ n + 1 then sliceFrom cs (n + 1 - runeLen c) else none

/-- The function `unhex` of `strconv`, on the first byte of a code point. -/
def unhex (c : Char) : Option Nat :=
  if 48 ≤ c.toNat ∧ c.toNat ≤ 57 then some (c.toNat - 48)
  else if 97 ≤ c.toNat ∧ c.toNat ≤ 102 then some (c.toNat - 97 + 10)
  else if 65 ≤ c.toNat ∧ c.toNat ≤ 70 then some (c.toNat - 65 + 10)
  else none

/-- The digit loop of `strconv.UnquoteChar`: `v = v<<4 | x` over the next `n` bytes.
A code point outside ASCII starts with a byte that is no hex digit. -/
def unhexRun : Nat → Str → Nat → Option (Nat × Str)
  | 0, s, v => some (v, s)
  | _ + 1, [], _ => none
  | n + 1, c :: s, v =>
    match unhex c with
    | some x => unhexRun n s (v * 16 + x)
    | none => none

/-- The predicate `utf8.ValidRune`. A 32-bit value with the top bit set is a negative
`rune` and is not valid; here it is a natural number above `0x10FFFF`. -/
def validRune (v : Nat) : Bool :=
  decide (v < 0xD800) || (decide (0xDFFF < v) && decide (v ≤ 0x10FFFF))

/-- The call `strconv.UnquoteChar("\\U" + fragment, 0)`: the arm for `\U` with eight
hex digits. The result is the value and the tail; `none` is `ErrSyntax`, which
comes with the empty tail. -/
def UnquoteChar (fragment : Str) : Option (Char × Str) :=
  if utf8Len fragment < 8 then none
  else
    match unhexRun 8 fragment 0 with
    | none => none
    | some (v, tail) => if validRune v then some (Char.ofNat v, tail) else none

/-! ## Escape -/

/-- The `default` arm of `escapeUnicode`: `strconv.QuoteRune`, `strings.Trim` of the
single quotes, then the hex digits `s[2:]` wrapped in braces after a backslash and `u`. -/
def escapeUnicodeHex (tbl : Tables) (c : Char) : Option Str :=
  match sliceFrom (Trim (QuoteRune tbl c) squote) 2 with
  | some hex => some (bslash :: 'u' :: lbrace :: hex ++ [rbrace])
  | none => none

/-- The function `escapeUnicode`. The result is `none` when the slice `s[2:]` of the
default arm does not yield a code-point string (see `sliceFrom`). -/
def escapeUnicode (tbl : Tables) (c : Char) : Option Str :=
  if c.toNat = 0x07 then some [bslash, 'a']
  else if c.toNat = 0x08 then some [bslash, 'b']
  else if c.toNat = 0x0B then some [bslash, 'v']
  else if c.toNat = 0x0C then some [bslash, 'f']
  else if c.toNat = 0x1B then some [bslash, 'e']
  else if c.toNat = 0x09 then some [bslash, 't']
  else if c.toNat = 0x0D then some [bslash, 'r']
  else if c.toNat = 0x0A then some [bslash, 'n']
  else escapeUnicodeHex tbl c

/-- One pass through the `switch` of the first loop of `Escape`, on the flags
`(needsQuoting, singleQuotable)`. -/
def classifyStep (tbl : Tables) (c : Char) (flags : Bool × Bool) : Bool × Bool :=
  if c = squote ∨ c = bslash then (true, false)
  else if c = dquote ∨ c = space ∨ c = amp then (true, flags.2)
  else if needsEscape tbl c then (true, false)
  else flags

/-- The first loop of `Escape`, with its `break` once `needsQuoting && !singleQuotable`. -/
def classify (tbl : Tables) : Str → Bool × Bool → Bool × Bool
  | [], flags => flags
  | c :: cs, flags =>
    let flags1 := classifyStep tbl c flags
    if flags1.1 && !flags1.2 then flags1 else classify tbl cs flags1

/-- One pass through the `switch` of the second loop of `Escape`: the text appended
to `ret` for the code point `c`. -/
def renderChar (tbl : Tables) (c : Char) : Option Str :=
  if c = dquote then some [bslash, dquote]
  else if c = bslash then some [bslash, bslash]
  else if c = space then some [space]
  else if c = dollar then some [bslash, dollar]
  else if c = btick then some [bslash, btick]
  else if needsEscape tbl c then escapeUnicode tbl c
  else some [c]

/-- The second loop of `Escape`, accumulating into `ret`. -/
def renderLoop (tbl : Tables) : Str → Str → Option Str
  | [], ret => some ret
  | c :: cs, ret =>
    match renderChar tbl c with
    | some e => renderLoop tbl cs (ret ++ e)
    | none => none

/-- The function `Escape`. -/
def Escape (tbl : Tables) (s : Str) : Option Str :=
  let flags := classify tbl s (false, true)
  if !flags.1 then some s
  else if flags.2 then some (squote :: s ++ [squote])
  else
    match renderLoop tbl s [dquote] with
    | some ret => some (ret ++ [dquote])
    | none => none

/-! ## Unescape -/

/-- The errors `Unescape` and `parseUnicodeSeq` build with `fmt.Errorf`, one
constructor per message, with the values the message is formatted with. -/
inductive UnescapeError where
  /-- Message "invalid backslash escape at character %d". -/
  | invalidBackslashEscape (i : Nat)
  /-- Message "invalid escape at character %d". -/
  | invalidEscape (i : Nat)
  /-- Message "invalid unicode escape at char %d". -/
  | invalidUnicodeEscape (i : Nat)
  /-- Message "unicode escape must be of the form \u\x7bhex\x7d, \x7b was expected at char %d". -/
  | braceExpected (i : Nat)
  /-- Message "could not find closing \x7d for unicode escape starting at %d". -/
  | noClosingBrace (start : Nat)
  /-- Message "invalid escape fragment %q in unicode escape starting at %d" (non-empty tail). -/
  | fragmentTail (fragment : Str) (i : Nat)
  /-- Message "invalid escape fragment %q in unicode escape starting at %d: %v" (syntax error). -/
  | fragmentSyntax (fragment : Str) (i : Nat)
  deriving DecidableEq, Repr

/-- What a call of `Unescape` does: return a string, return an error, or panic on an
index out of range. `fuel` is the model running out of loop iterations; `Unescape`
never yields it (`unescape_total`). -/
inductive Outcome where
  | ok (res : Str)
  | error (e : UnescapeError)
  | panic
  | fuel
  deriving DecidableEq, Repr

/-- The padding loop `for len(fragment) < 8 { fragment = "0" + fragment }`; `len` counts bytes. -/
def padFragment (fragment : Str) : Str :=
  List.replicate (8 - utf8Len fragment) '0' ++ fragment

/-- The function `parseUnicodeSeq(i, s)`; `rest` is `s[i:]` and starts with the `u`.
On success the result is the decoded string, the new index (that of the closing
brace) and the suffix at the new index. -/
def parseUnicodeSeq (i : Nat) (rest : Str) : Except UnescapeError (Str × Nat × Str) :=
  let start := i
  let i := i + 1
  let rest := rest.tail
  -- `i >= len(s)-1` with `len(s) = i + len(rest)`
  if rest.length ≤ 1 then .error (.invalidUnicodeEscape i)
  else
    match rest with
    | [] => .error (.invalidUnicodeEscape i)
    | c :: rest =>
      if c ≠ lbrace then .error (.braceExpected i)
      else
        let fragment := rest.takeWhile (fun x => decide (x ≠ rbrace))
        let rest := rest.dropWhile (fun x => decide (x ≠ rbrace))
        let i := i + 1 + fragment.length
        if rest = [] then .error (.noClosingBrace start)
        else
          let fragment := padFragment fragment
          match UnquoteChar fragment with
          | some (val, tail) =>
            if tail ≠ [] then .error (.fragmentTail fragment i)
            else .ok ([val], i, rest)
          | none => .error (.fragmentSyntax fragment i)

/-- The arms of the inner `switch sr[i]` of `Unescape` that append one fixed character. -/
def simpleEscape (e : Char) : Option Char :=
  if e = 'a' then some (Char.ofNat 0x07)
  else if e = 'b' then some (Char.ofNat 0x08)
  else if e = 'v' then some (Char.ofNat 0x0B)
  else if e = 'f' then some (Char.ofNat 0x0C)
  else if e = 'n' then some (Char.ofNat 0x0A)
  else if e = 'r' then some (Char.ofNat 0x0D)
  else if e = 't' then some (Char.ofNat 0x09)
  else if e = 'e' ∨ e = 'E' then some (Char.ofNat 0x1B)
  else if e = bslash then some bslash
  else if e = squote then some squote
  else if e = dquote then some dquote
  else if e = dollar then some dollar
  else if e = btick then some btick
  else if e = space then some space
  else none

/-- The loop of `Unescape` from index `i` on, where `rest` is `sr[i:]` and `n` is
`len(s)`, the byte length of the input string. -/
def scan (n : Nat) : Nat → Nat → Str → Bool → Bool → Str → Outcome
  | 0, _, _, _, _, _ => .fuel
  | _ + 1, _, [], _, _, res => .ok res
  | k + 1, i, c :: rest, inSingleQuote, inDoubleQuote, res =>
    if inSingleQuote ∧ c = squote then scan n k (i + 1) rest false inDoubleQuote res
    else if inSingleQuote then scan n k (i + 1) rest inSingleQuote inDoubleQuote (res ++ [c])
    else if inDoubleQuote ∧ c = dquote then scan n k (i + 1) rest inSingleQuote false res
    else if inDoubleQuote ∧ c = bslash then
      -- `i == len(s)-1`
      if i + 1 = n then .error (.invalidBackslashEscape i)
      else
        -- `i++` and `sr[i]`
        match rest with
        | [] => .panic
        | e :: rest1 =>
          if e = 'u' then
            match parseUnicodeSeq (i + 1) (e :: rest1) with
            | .error err => .error err
            | .ok (charParsed, newI, restNew) =>
              scan n k (newI + 1) restNew.tail inSingleQuote inDoubleQuote (res ++ charParsed)
          else
            match simpleEscape e with
            | some r => scan n k (i + 2) rest1 inSingleQuote inDoubleQuote (res ++ [r])
            | none => .error (.invalidEscape (i + 1))
    else if inDoubleQuote then scan n k (i + 1) rest inSingleQuote inDoubleQuote (res ++ [c])
    else if c = squote then scan n k (i + 1) rest true inDoubleQuote res
    else if c = dquote then scan n k (i + 1) rest inSingleQuote true res
    else scan n k (i + 1) rest inSingleQuote inDoubleQuote (res ++ [c])

/-- The function `Unescape`. Every pass of the loop consumes at least one code
point, so `len(sr) + 1` passes are enough. -/
def Unescape (s : Str) : Outcome :=
  scan (utf8Len s) (s.length + 1) 0 s false false []

/-- The loop of `Unescape` from index `i` on, with the number of passes `Unescape`
allows for the remaining code points. -/
def run (n i : Nat) (rest : Str) (inSingleQuote inDoubleQuote : Bool) (res : Str) : Outcome :=
  scan n (rest.length + 1) i rest inSingleQuote inDoubleQuote res

/-! ## Vocabulary of the specification -/

/-- The escape resolution table as the specification lists it: the code point after
the backslash, and the code point it resolves to. -/
def resolutionTable : List (Char × Char) :=
  [('a', Char.ofNat 0x07), ('b', Char.ofNat 0x08), ('v', Char.ofNat 0x0B),
   ('f', Char.ofNat 0x0C), ('n', Char.ofNat 0x0A), ('r', Char.ofNat 0x0D),
   ('t', Char.ofNat 0x09), ('e', Char.ofNat 0x1B), ('E', Char.ofNat 0x1B),
   (bslash, bslash), (squote, squote), (dquote, dquote), (dollar, dollar),
   (btick, btick), (space, space)]

/-- The hexadecimal digits, upper and lower case, with their values. -/
def hexDigits : List (Char × Nat) :=
  [('0', 0), ('1', 1), ('2', 2), ('3', 3), ('4', 4), ('5', 5), ('6', 6), ('7', 7),
   ('8', 8), ('9', 9), ('a', 10), ('b', 11), ('c', 12), ('d', 13), ('e', 14), ('f', 15),
   ('A', 10), ('B', 11), ('C', 12), ('D', 13), ('E', 14), ('F', 15)]

/-- The code points that are hexadecimal digits. -/
def hexChars : List Char := hexDigits.map Prod.fst

/-- Value of a hexadecimal digit. -/
def hexDigitValue (c : Char) : Nat := (hexDigits.lookup c).getD 0

/-- Numeric value of a string of hexadecimal digits, most significant digit first. -/
def hexValue (h : Str) : Nat := h.foldl (fun acc c => 16 * acc + hexDigitValue c) 0

/-- A code point that is Unicode whitespace or in one of the categories Zs, Zl, Zp, Other. -/
def isSeparatorOrOther (tbl : Tables) (c : Char) : Bool :=
  isSpace c || isZs c || isZl c || isZp c || isOther tbl c

/-- A code point that makes a string need quoting: one of `"`, space, `&`, `'`, `\`, or a
whitespace, separator or Other code point. -/
def quoteTrigger (tbl : Tables) (c : Char) : Bool :=
  decide (c = dquote ∨ c = space ∨ c = amp ∨ c = squote ∨ c = bslash)
    || isSeparatorOrOther tbl c

/-- A code point that rules single quotes out: `'`, `\`, or a whitespace, separator or
Other code point other than the plain space. -/
def singleQuoteBlocker (tbl : Tables) (c : Char) : Bool :=
  decide (c = squote ∨ c = bslash) || (isSeparatorOrOther tbl c && decide (c ≠ space))

/-- Agreement of the `strconv.IsPrint` range tables with the `unicode` tables: no code
point above Latin-1 that is whitespace, a separator or in Other is printable. The
tables of `strconv` are generated from those of `unicode`, where the printable
categories L, M, N, P, S are disjoint from Z and C. -/
def TablesAgree (tbl : Tables) : Prop :=
  ∀ c : Char, 0xFF < c.toNat → needsEscape tbl c = true → tbl.printable c = false

/-- Tables without entries above Latin-1, for closed examples: no code point there is
printable and none counts as unassigned. -/
def emptyTable : Tables := ⟨fun _ => false, fun _ => false⟩

/-- Tables for closed examples in which the code point U+0378 is unassigned, as it is in
Go 1.25 and later. -/
def sampleTable : Tables := ⟨fun _ => false, fun c => decide (c.toNat = 0x378)⟩

/-- The lowercase hexadecimal digits. -/
def lowerHexChars : List Char := "0123456789abcdef".toList

/-- The example string `cash $ money` of the specification. -/
def cashMoney : Str := "cash $ money".toList

/-- The error kind `InvalidCodePoint` of the specification: the two errors of
`parseUnicodeSeq` that report an invalid escape fragment. -/
def isInvalidCodePoint : Outcome → Bool
  | .error (.fragmentTail _ _) => true
  | .error (.fragmentSyntax _ _) => true
  | _ => false

/-- Lowercase hexadecimal digits of a number, with no leading zeros. -/
def minimalHex (n : Nat) : Str := Nat.toDigits 16 n

/-- Number of digits `strconv.QuoteRune` writes for a code point that is not printable:
two after `\x`, four after `\u`, eight after `\U`. -/
def hexWidth (c : Char) : Nat :=
  if c.toNat < 0x20 ∨ c.toNat = 0x7F then 2 else if c.toNat < 0x10000 then 4 else 8

/-- The eight control characters that have a mnemonic escape. -/
def mnemonicControls : List Char :=
  [0x07, 0x08, 0x0B, 0x0C, 0x0A, 0x0D, 0x09, 0x1B].map Char.ofNat

/-- Characters that POSIX (Shell Command Language, section 2.2) requires to be quoted to
stand for themselves, or that may need quoting depending on where they occur. -/
def shellSpecial : List Char :=
  [dollar, btick, bslash, dquote, squote, space, amp, Char.ofNat 0x09, Char.ofNat 0x0A]
    ++ "|;<>()*?[#~=%".toList

/-- The first loop of `Escape` without its `break`: every code point is classified. -/
def classifyAll (tbl : Tables) : Str → Bool × Bool → Bool × Bool
  | [], flags => flags
  | c :: cs, flags => classifyAll tbl cs (classifyStep tbl c flags)

/-- The function `Escape` with the first loop run to the end of the string. -/
def EscapeNoBreak (tbl : Tables) (s : Str) : Option Str :=
  let flags := classifyAll tbl s (false, true)
  if !flags.1 then some s
  else if flags.2 then some (squote :: s ++ [squote])
  else
    match renderLoop tbl s [dquote] with
    | some ret => some (ret ++ [dquote])
    | none => none

/-- The variables of the loop of `Unescape` at the top of a pass: the index `i`, the
suffix `sr[i:]`, the two mode flags and the result so far. -/
structure ScanState where
  i : Nat
  rest : Str
  inSingleQuote : Bool
  inDoubleQuote : Bool
  res : Str
  deriving DecidableEq, Repr

/-- What one pass of the loop of `Unescape` does: go on from a new state, or leave the
function with an outcome. -/
inductive Step where
  | goto (st : ScanState)
  | ret (o : Outcome)
  deriving DecidableEq, Repr

/-- One pass of the loop of `Unescape`, the body of `scan` (`scan_step`); with no code
point left the loop ends and the result is returned. -/
def step (n : Nat) (st : ScanState) : Step :=
  match st.rest with
  | [] => .ret (.ok st.res)
  | c :: rest =>
    if st.inSingleQuote ∧ c = squote then
      .goto ⟨st.i + 1, rest, false, st.inDoubleQuote, st.res⟩
    else if st.inSingleQuote then
      .goto ⟨st.i + 1, rest, st.inSingleQuote, st.inDoubleQuote, st.res ++ [c]⟩
    else if st.inDoubleQuote ∧ c = dquote then
      .goto ⟨st.i + 1, rest, st.inSingleQuote, false, st.res⟩
    else if st.inDoubleQuote ∧ c = bslash then
      if st.i + 1 = n then .ret (.error (.invalidBackslashEscape st.i))
      else
        match rest with
        | [] => .ret .panic
        | e :: rest1 =>
          if e = 'u' then
            match parseUnicodeSeq (st.i + 1) (e :: rest1) with
            | .error err => .ret (.error err)
            | .ok (charParsed, newI, restNew) =>
              .goto ⟨newI + 1, restNew.tail, st.inSingleQuote, st.inDoubleQuote,
                st.res ++ charParsed⟩
          else
            match simpleEscape e with
            | some r =>
              .goto ⟨st.i + 2, rest1, st.inSingleQuote, st.inDoubleQuote, st.res ++ [r]⟩
            | none => .ret (.error (.invalidEscape (st.i + 1)))
    else if st.inDoubleQuote then
      .goto ⟨st.i + 1, rest, st.inSingleQuote, st.inDoubleQuote, st.res ++ [c]⟩
    else if c = squote then .goto ⟨st.i + 1, rest, true, st.inDoubleQuote, st.res⟩
    else if c = dquote then .goto ⟨st.i + 1, rest, st.inSingleQuote, true, st.res⟩
    else .goto ⟨st.i + 1, rest, st.inSingleQuote, st.inDoubleQuote, st.res ++ [c]⟩

/-- The state `Unescape` starts its loop in. -/
def initState (s : Str) : ScanState := ⟨0, s, false, false, []⟩

/-- The state after `k` passes of the loop, when the loop makes that many. -/
def stepN (n : Nat) : Nat → ScanState → Option ScanState
  | 0, st => some st
  | k + 1, st =>
    match step n st with
    | .goto st1 => stepN n k st1
    | .ret _ => none

/-- The state in which the loop ends normally, within the given number of passes: `none`
when the function returns an error or panics before the end of the input. -/
def finalState (n : Nat) : Nat → ScanState → Option ScanState
  | 0, _ => none
  | k + 1, st =>
    match step n st with
    | .goto st1 => finalState n k st1
    | .ret (.ok _) => some st
    | .ret _ => none

/-- The state in which the loop of `Unescape s` ends, when it reaches the end of `s`. -/
def scanEnd (s : Str) : Option ScanState :=
  finalState (utf8Len s) (s.length + 1) (initState s)

/-! ## The scanning loop: termination and step equations -/

theorem parseUnicodeSeq_rest_length {i : Nat} {rest ch restNew : Str} {newI : Nat}
    (h : parseUnicodeSeq i rest = .ok (ch, newI, restNew)) :
    restNew.length + 2 ≤ rest.length := by
  unfold parseUnicodeSeq at h
  simp only [] at h
  split at h
  · cases h
  · rename_i hlen
    cases hr : rest.tail with
    | nil => rw [hr] at hlen; simp at hlen
    | cons c r2 =>
      rw [hr] at h
      simp only [] at h
      split at h
      · cases h
      · split at h
        · cases h
        · split at h
          · split at h
            · cases h
            · simp only [Except.ok.injEq, Prod.mk.injEq] at h
              obtain ⟨-, -, h3⟩ := h
              subst h3
              have h1 : (List.dropWhile (fun x => decide (x ≠ rbrace)) r2).length ≤ r2.length :=
                (List.dropWhile_sublist _).length_le
              have h2 : rest.tail.length = rest.length - 1 := List.length_tail rest
              rw [hr] at h2
              simp only [List.length_cons] at h2
              omega
          · cases h

theorem scan_fuel (n : Nat) : ∀ (k k2 i : Nat) (rest : Str) (s d : Bool) (res : Str),
    rest.length < k → rest.length < k2 →
    scan n k i rest s d res = scan n k2 i rest s d res := by
  intro k
  induction k with
  | zero => intro k2 i rest s d res h; omega
  | succ k ih =>
    intro k2 i rest s d res h1 h2
    cases k2 with
    | zero => omega
    | succ k2 =>
      cases rest with
      | nil => simp [scan]
      | cons c rest =>
        simp only [List.length_cons] at h1 h2
        have hr := ih k2 (i + 1) rest
        simp only [scan]
        split
        · exact hr _ _ _ (by omega) (by omega)
        split
        · exact hr _ _ _ (by omega) (by omega)
        split
        · exact hr _ _ _ (by omega) (by omega)
        split
        · split
          · rfl
          · cases rest with
            | nil => rfl
            | cons e rest1 =>
              simp only [List.length_cons] at h1 h2
              simp only []
              split
              · split
                · rfl
                · rename_i hp
                  have := parseUnicodeSeq_rest_length hp
                  simp only [List.length_cons] at this
                  apply ih
                  · rw [List.length_tail]; omega
                  · rw [List.length_tail]; omega
              · split
                · exact ih _ _ _ _ _ _ (by omega) (by omega)
                · rfl
        split
        · exact hr _ _ _ (by omega) (by omega)
        split
        · exact hr _ _ _ (by omega) (by omega)
        split
        · exact hr _ _ _ (by omega) (by omega)
        · exact hr _ _ _ (by omega) (by omega)

theorem scan_ne_fuel (n : Nat) : ∀ (k i : Nat) (rest : Str) (s d : Bool) (res : Str),
    rest.length < k → scan n k i rest s d res ≠ .fuel := by
  intro k
  induction k with
  | zero => intro i rest s d res h; omega
  | succ k ih =>
    intro i rest s d res h1
    cases rest with
    | nil => simp [scan]
    | cons c rest =>
      simp only [List.length_cons] at h1
      have hr := ih (i + 1) rest
      simp only [scan]
      split
      · exact hr _ _ _ (by omega)
      split
      · exact hr _ _ _ (by omega)
      split
      · exact hr _ _ _ (by omega)
      split
      · split
        · simp
        · cases rest with
          | nil => simp
          | cons e rest1 =>
            simp only [List.length_cons] at h1
            simp only []
            split
            · split
              · simp
              · rename_i hp
                have := parseUnicodeSeq_rest_length hp
                simp only [List.length_cons] at this
                apply ih
                rw [List.length_tail]; omega
            · split
              · exact ih _ _ _ _ _ (by omega)
              · simp
      split
      · exact hr _ _ _ (by omega)
      split
      · exact hr _ _ _ (by omega)
      split
      · exact hr _ _ _ (by omega)
      · exact hr _ _ _ (by omega)

theorem run_nil (n i : Nat) (s d : Bool) (res : Str) : run n i [] s d res = .ok res := by
  simp [run, scan]

theorem run_sq_close (n i : Nat) (rest : Str) (d : Bool) (res : Str) :
    run n i (squote :: rest) true d res = run n (i + 1) rest false d res := by
  simp [run, scan]

theorem run_sq_lit (n i : Nat) (c : Char) (rest : Str) (d : Bool) (res : Str) (hc : c ≠ squote) :
    run n i (c :: rest) true d res = run n (i + 1) rest true d (res ++ [c]) := by
  simp [run, scan, hc]

theorem run_dq_close (n i : Nat) (rest : Str) (res : Str) :
    run n i (dquote :: rest) false true res = run n (i + 1) rest false false res := by
  simp [run, scan]

theorem run_dq_lit (n i : Nat) (c : Char) (rest : Str) (res : Str)
    (h1 : c ≠ dquote) (h2 : c ≠ bslash) :
    run n i (c :: rest) false true res = run n (i + 1) rest false true (res ++ [c]) := by
  simp [run, scan, h1, h2]

theorem run_dq_trailing (n i : Nat) (rest : Str) (res : Str) (h : i + 1 = n) :
    run n i (bslash :: rest) false true res = .error (.invalidBackslashEscape i) := by
  have : bslash ≠ dquote := by decide
  simp [run, scan, h, this]

theorem run_dq_panic (n i : Nat) (res : Str) (h : i + 1 ≠ n) :
    run n i [bslash] false true res = .panic := by
  have : bslash ≠ dquote := by decide
  simp [run, scan, h, this]

theorem run_dq_simple (n i : Nat) (e r : Char) (rest : Str) (res : Str) (h : i + 1 ≠ n)
    (he : simpleEscape e = some r) :
    run n i (bslash :: e :: rest) false true res = run n (i + 2) rest false true (res ++ [r]) := by
  have h0 : bslash ≠ dquote := by decide
  have hu : e ≠ 'u' := by
    intro hu
    have hn : simpleEscape 'u' = none := by decide
    rw [hu, hn] at he
    cases he
  simp only [run, scan, List.length_cons]
  simp only [h0, hu, h, he, Bool.false_eq_true, false_and, and_false, if_false, true_and, if_true]
  exact scan_fuel n _ _ _ _ _ _ _ (by omega) (by omega)

theorem run_dq_invalid (n i : Nat) (e : Char) (rest : Str) (res : Str) (h : i + 1 ≠ n)
    (hu : e ≠ 'u') (he : simpleEscape e = none) :
    run n i (bslash :: e :: rest) false true res = .error (.invalidEscape (i + 1)) := by
  have h0 : bslash ≠ dquote := by decide
  simp only [run, scan, List.length_cons]
  simp only [h0, hu, h, he, Bool.false_eq_true, false_and, and_false, if_false, true_and, if_true]

theorem run_dq_unicode (n i : Nat) (rest : Str) (res ch restNew : Str) (newI : Nat)
    (h : i + 1 ≠ n)
    (hp : parseUnicodeSeq (i + 1) ('u' :: rest) = .ok (ch, newI, restNew)) :
    run n i (bslash :: 'u' :: rest) false true res
      = run n (newI + 1) restNew.tail false true (res ++ ch) := by
  have h0 : bslash ≠ dquote := by decide
  have hl := parseUnicodeSeq_rest_length hp
  simp only [List.length_cons] at hl
  simp only [run, scan, List.length_cons]
  simp only [h0, h, hp, Bool.false_eq_true, false_and, and_false, if_false, true_and, if_true]
  apply scan_fuel
  · rw [List.length_tail]; omega
  · omega

theorem run_dq_unicode_error (n i : Nat) (rest : Str) (res : Str) (err : UnescapeError)
    (h : i + 1 ≠ n)
    (hp : parseUnicodeSeq (i + 1) ('u' :: rest) = .error err) :
    run n i (bslash :: 'u' :: rest) false true res = .error err := by
  have h0 : bslash ≠ dquote := by decide
  simp only [run, scan, List.length_cons]
  simp only [h0, h, hp, Bool.false_eq_true, false_and, and_false, if_false, true_and, if_true]

theorem run_unq_squote (n i : Nat) (rest : Str) (res : Str) :
    run n i (squote :: rest) false false res = run n (i + 1) rest true false res := by
  simp [run, scan]

theorem run_unq_dquote (n i : Nat) (rest : Str) (res : Str) :
    run n i (dquote :: rest) false false res = run n (i + 1) rest false true res := by
  have : dquote ≠ squote := by decide
  simp [run, scan, this]

theorem run_unq_lit (n i : Nat) (c : Char) (rest : Str) (res : Str)
    (h1 : c ≠ squote) (h2 : c ≠ dquote) :
    run n i (c :: rest) false false res = run n (i + 1) rest false false (res ++ [c]) := by
  simp [run, scan, h1, h2]

theorem Unescape_eq_run (s : Str) : Unescape s = run (utf8Len s) 0 s false false [] := rfl

theorem unescape_total (s : Str) : Unescape s ≠ .fuel :=
  scan_ne_fuel _ _ _ _ _ _ _ (Nat.lt_succ_self _)

theorem utf8Len_cons (c : Char) (cs : Str) : utf8Len (c :: cs) = runeLen c + utf8Len cs := rfl

theorem length_le_utf8Len (s : Str) : s.length ≤ utf8Len s := by
  induction s with
  | nil => simp [utf8Len]
  | cons c cs ih =>
    have : 1 ≤ runeLen c := by unfold runeLen; split_ifs <;> omega
    rw [utf8Len_cons, List.length_cons]; omega

theorem utf8Len_append (a b : Str) : utf8Len (a ++ b) = utf8Len a + utf8Len b := by
  induction a with
  | nil => simp [utf8Len]
  | cons c cs ih => rw [List.cons_append, utf8Len_cons, utf8Len_cons, ih]; omega

theorem run_unq_segment (n : Nat) (seg rest : Str) (h1 : squote ∉ seg) (h2 : dquote ∉ seg) :
    ∀ (i : Nat) (res : Str), run n i (seg ++ rest) false false res
      = run n (i + seg.length) rest false false (res ++ seg) := by
  induction seg with
  | nil => intro i res; simp
  | cons c cs ih =>
    intro i res
    simp only [List.mem_cons, not_or] at h1 h2
    rw [List.cons_append, run_unq_lit n i c _ res (Ne.symm h1.1) (Ne.symm h2.1), ih h1.2 h2.2]
    simp only [List.length_cons, List.append_assoc, List.singleton_append]
    congr 1; omega

theorem run_sq_segment (n : Nat) (seg rest : Str) (d : Bool) (h1 : squote ∉ seg) :
    ∀ (i : Nat) (res : Str), run n i (seg ++ rest) true d res
      = run n (i + seg.length) rest true d (res ++ seg) := by
  induction seg with
  | nil => intro i res; simp
  | cons c cs ih =>
    intro i res
    simp only [List.mem_cons, not_or] at h1
    rw [List.cons_append, run_sq_lit n i c _ d res (Ne.symm h1.1), ih h1.2]
    simp only [List.length_cons, List.append_assoc, List.singleton_append]
    congr 1; omega

theorem run_dq_segment (n : Nat) (seg rest : Str) (h1 : dquote ∉ seg) (h2 : bslash ∉ seg) :
    ∀ (i : Nat) (res : Str), run n i (seg ++ rest) false true res
      = run n (i + seg.length) rest false true (res ++ seg) := by
  induction seg with
  | nil => intro i res; simp
  | cons c cs ih =>
    intro i res
    simp only [List.mem_cons, not_or] at h1 h2
    rw [List.cons_append, run_dq_lit n i c _ res (Ne.symm h1.1) (Ne.symm h2.1), ih h1.2 h2.2]
    simp only [List.length_cons, List.append_assoc, List.singleton_append]
    congr 1; omega

/-! ## Escape tables and hexadecimal payloads -/

theorem simpleEscape_of_mem_table : ∀ p ∈ resolutionTable, simpleEscape p.1 = some p.2 := by
  decide

theorem simpleEscape_none (c : Char) (h : c ∉ resolutionTable.map Prod.fst) :
    simpleEscape c = none := by
  simp only [resolutionTable, List.map, List.mem_cons, not_or, List.mem_nil_iff,
    not_false_eq_true, and_true] at h
  obtain ⟨h1, h2, h3, h4, h5, h6, h7, h8, h9, h10, h11, h12, h13, h14, h15⟩ := h
  simp only [simpleEscape, h1, h2, h3, h4, h5, h6, h7, h8, h9, h10, h11, h12, h13, h14, h15,
    if_false, or_self]

theorem hexChars_facts : ∀ c ∈ hexChars,
    unhex c = some (hexDigitValue c) ∧ runeLen c = 1 ∧ c ≠ rbrace := by
  decide

theorem utf8Len_hex (h : Str) (hhex : ∀ c ∈ h, c ∈ hexChars) : utf8Len h = h.length := by
  induction h with
  | nil => rfl
  | cons c cs ih =>
    rw [utf8Len_cons, List.length_cons, ih (fun x hx => hhex x (List.mem_cons_of_mem _ hx)),
      (hexChars_facts c (hhex c (List.mem_cons_self _ _))).2.1]
    omega

theorem utf8Len_zeros (k : Nat) : utf8Len (List.replicate k '0') = k := by
  induction k with
  | zero => rfl
  | succ k ih =>
    rw [List.replicate_succ, utf8Len_cons, ih]
    have : runeLen '0' = 1 := by decide
    omega

theorem unhexRun_zeros (m : Nat) (rest : Str) : ∀ k : Nat,
    unhexRun (k + m) (List.replicate k '0' ++ rest) 0 = unhexRun m rest 0 := by
  intro k
  induction k with
  | zero => simp
  | succ k ih =>
    have h0 : unhex '0' = some 0 := by decide
    rw [Nat.succ_add, List.replicate_succ, List.cons_append]
    simp only [unhexRun, h0]
    exact ih

theorem unhexRun_hex (tail : Str) : ∀ (h : Str), (∀ c ∈ h, c ∈ hexChars) → ∀ v : Nat,
    unhexRun h.length (h ++ tail) v
      = some (h.foldl (fun acc c => 16 * acc + hexDigitValue c) v, tail) := by
  intro h
  induction h with
  | nil => intro _ v; rfl
  | cons c cs ih =>
    intro hhex v
    have hc := (hexChars_facts c (hhex c (List.mem_cons_self _ _))).1
    rw [List.length_cons, List.cons_append]
    simp only [unhexRun, hc, List.foldl_cons]
    rw [ih (fun x hx => hhex x (List.mem_cons_of_mem _ hx)), Nat.mul_comm]

theorem validRune_toNat (v : Char) : validRune v.toNat = true := by
  have h := v.valid
  unfold validRune
  simp only [Bool.or_eq_true, Bool.and_eq_true, decide_eq_true_eq]
  have : v.toNat = v.val.toNat := rfl
  rcases h with h | h
  · left; rw [this]; exact h
  · right; rw [this]; constructor
    · exact h.1
    · have := h.2; omega

theorem UnquoteChar_padFragment (h : Str) (v : Char) (hlen : h.length ≤ 8)
    (hhex : ∀ c ∈ h, c ∈ hexChars) (hval : hexValue h = v.toNat) :
    UnquoteChar (padFragment h) = some (v, []) := by
  have hu := utf8Len_hex h hhex
  have hr := unhexRun_hex [] h hhex 0
  rw [List.append_nil] at hr
  have hz := unhexRun_zeros h.length h (8 - h.length)
  have h8 : 8 - h.length + h.length = 8 := by omega
  rw [h8, hr] at hz
  unfold UnquoteChar padFragment
  rw [hu, utf8Len_append, utf8Len_zeros, hu, if_neg (by omega), hz]
  change (if validRune (hexValue h) = true then some (Char.ofNat (hexValue h), []) else none) = _
  rw [hval, validRune_toNat, if_pos rfl, Char.ofNat_toNat]

theorem parseUnicodeSeq_hex (i : Nat) (h rest : Str) (v : Char) (hlen : h.length ≤ 8)
    (hhex : ∀ c ∈ h, c ∈ hexChars) (hval : hexValue h = v.toNat) :
    parseUnicodeSeq i ('u' :: lbrace :: (h ++ rbrace :: rest))
      = .ok ([v], i + 2 + h.length, rbrace :: rest) := by
  have hp : ∀ a ∈ h, (fun x => decide (x ≠ rbrace)) a = true := by
    intro a ha
    simp only [decide_eq_true_eq]
    exact (hexChars_facts a (hhex a ha)).2.2
  have ht : List.takeWhile (fun x => decide (x ≠ rbrace)) (h ++ rbrace :: rest) = h := by
    rw [List.takeWhile_append_of_pos hp]; simp
  have hd : List.dropWhile (fun x => decide (x ≠ rbrace)) (h ++ rbrace :: rest)
      = rbrace :: rest := by
    rw [List.dropWhile_append_of_pos hp]; simp
  unfold parseUnicodeSeq
  simp only [List.tail_cons, List.length_cons, ht, hd,
    UnquoteChar_padFragment h v hlen hhex hval]
  rw [if_neg (by simp), if_neg (by simp), if_neg (by simp), if_neg (by simp)]

theorem run_dq_unicode_hex (n i : Nat) (h rest res : Str) (v : Char) (hn : i + 1 ≠ n)
    (hlen : h.length ≤ 8) (hhex : ∀ c ∈ h, c ∈ hexChars) (hval : hexValue h = v.toNat) :
    run n i (bslash :: 'u' :: lbrace :: (h ++ rbrace :: rest)) false true res
      = run n (i + 4 + h.length) rest false true (res ++ [v]) := by
  have hp := parseUnicodeSeq_hex (i + 1) h rest v hlen hhex hval
  rw [run_dq_unicode n i _ res [v] (rbrace :: rest) _ hn hp]
  simp only [List.tail_cons]
  congr 1
  omega

/-! ## Classification of code points by `Escape` -/

theorem needsEscape_eq (tbl : Tables) (c : Char) : needsEscape tbl c = isSeparatorOrOther tbl c := by
  unfold needsEscape inSepOther isSeparatorOrOther
  cases isSpace c <;> cases isZs c <;> cases isZl c <;> cases isZp c <;> cases isOther tbl c <;> rfl

theorem classifyStep_eq (tbl : Tables) (c : Char) (flags : Bool × Bool) :
    classifyStep tbl c flags = (flags.1 || quoteTrigger tbl c, flags.2 && !singleQuoteBlocker tbl c) := by
  unfold classifyStep quoteTrigger singleQuoteBlocker
  rw [← needsEscape_eq]
  by_cases h1 : c = squote ∨ c = bslash
  · rw [if_pos h1]
    simp [h1]
  · rw [if_neg h1]
    by_cases h2 : c = dquote ∨ c = space ∨ c = amp
    · rw [if_pos h2]
      have hd : needsEscape tbl dquote = false := rfl
      have ha : needsEscape tbl amp = false := rfl
      rcases h2 with h | h | h <;> subst h <;> simp [h1, hd, ha]
    · rw [if_neg h2]
      simp only [not_or] at h1 h2
      by_cases h3 : needsEscape tbl c = true
      · rw [if_pos h3]
        simp [h1, h2, h3]
      · rw [if_neg h3]
        simp only [Bool.not_eq_true] at h3
        simp [h1, h2, h3]

theorem classify_eq (tbl : Tables) (s : Str) : ∀ flags : Bool × Bool,
    classify tbl s flags
      = (flags.1 || s.any (quoteTrigger tbl), flags.2 && !s.any (singleQuoteBlocker tbl)) := by
  induction s with
  | nil => intro flags; simp [classify]
  | cons c cs ih =>
    intro flags
    simp only [classify, classifyStep_eq, List.any_cons]
    rw [← Bool.or_assoc, Bool.not_or, ← Bool.and_assoc]
    generalize (flags.1 || quoteTrigger tbl c) = a
    generalize (flags.2 && !singleQuoteBlocker tbl c) = b
    cases a <;> cases b <;> simp [ih]

/-! ## Rendering and scanning of escape sequences -/

theorem lowerhex_facts : ∀ n : Nat, n < 16 →
    lowerhex n ∈ hexChars ∧ hexDigitValue (lowerhex n) = n ∧ lowerhex n ≠ squote := by
  decide

theorem hexFixed_length (r : Nat) : ∀ k : Nat, (hexFixed k r).length = k := by
  intro k
  induction k with
  | zero => rfl
  | succ k ih => simp [hexFixed, ih]

theorem hexFixed_hex (r : Nat) : ∀ k : Nat, ∀ c ∈ hexFixed k r, c ∈ hexChars ∧ c ≠ squote := by
  intro k
  induction k with
  | zero => intro c hc; simp [hexFixed] at hc
  | succ k ih =>
    intro c hc
    simp only [hexFixed, List.mem_cons] at hc
    rcases hc with hc | hc
    · have h := lowerhex_facts (r / 16 ^ k % 16) (Nat.mod_lt _ (by norm_num))
      rw [hc]; exact ⟨h.1, h.2.2⟩
    · exact ih c hc

theorem foldl_hexFixed (r : Nat) : ∀ (k v : Nat),
    (hexFixed k r).foldl (fun acc c => 16 * acc + hexDigitValue c) v
      = v * 16 ^ k + r % 16 ^ k := by
  intro k
  induction k with
  | zero => intro v; simp [hexFixed, Nat.mod_one]
  | succ k ih =>
    intro v
    have h := (lowerhex_facts (r / 16 ^ k % 16) (Nat.mod_lt _ (by norm_num))).2.1
    simp only [hexFixed, List.foldl_cons, h, ih]
    rw [pow_succ, Nat.mod_mul]
    ring

theorem hexValue_hexFixed (k r : Nat) (h : r < 16 ^ k) : hexValue (hexFixed k r) = r := by
  unfold hexValue
  rw [foldl_hexFixed, Nat.mod_eq_of_lt h]
  simp

theorem Trim_quoted (x : Char) (hex : Str) (hx : x ≠ squote) (hhex : ∀ c ∈ hex, c ≠ squote) :
    Trim (squote :: (bslash :: x :: hex) ++ [squote]) squote = bslash :: x :: hex := by
  have hb : bslash ≠ squote := by decide
  have h1 : List.dropWhile (fun c => decide (c = squote))
      (squote :: (bslash :: x :: hex) ++ [squote]) = (bslash :: x :: hex) ++ [squote] := by
    simp [List.dropWhile, hb]
  unfold Trim
  rw [h1, List.rdropWhile_concat_pos _ _ _ (by simp), List.rdropWhile_eq_self_iff]
  intro hl
  have hm := List.getLast_mem hl
  simp only [List.mem_cons] at hm
  simp only [decide_eq_true_eq]
  rcases hm with hm | hm | hm
  · rw [hm]; exact hb
  · rw [hm]; exact hx
  · exact hhex _ hm

theorem sliceFrom_two (x : Char) (hex : Str) (hx : runeLen x = 1) :
    sliceFrom (bslash :: x :: hex) 2 = some hex := by
  have hb : runeLen bslash = 1 := by decide
  simp [sliceFrom, hb, hx]

theorem char_eq_of_toNat {c : Char} {k : Nat} (h : c.toNat = k) : c = Char.ofNat k := by
  rw [← h, Char.ofNat_toNat]

theorem toNat_lt (c : Char) : c.toNat < 0x110000 := by
  have h := c.valid
  have : c.toNat = c.val.toNat := rfl
  rcases h with h | h
  · rw [this]; exact Nat.lt_trans h (by decide)
  · rw [this]; exact h.2

theorem needsEscape_squote (tbl : Tables) : needsEscape tbl squote = false := rfl

theorem needsEscape_bslash (tbl : Tables) : needsEscape tbl bslash = false := rfl

theorem needsEscape_latin1 (tbl : Tables) (c : Char) (h : needsEscape tbl c = true) (hl : c.toNat ≤ 0xFF) :
    c.toNat ≤ 0x20 ∨ (0x7F ≤ c.toNat ∧ c.toNat ≤ 0xA0) ∨ c.toNat = 0xAD := by
  simp only [needsEscape, isSpace, inSepOther, isZl, isZp, isZs, isOther, isCc, isCf, isCo,
    inRange, Bool.or_eq_true, Bool.and_eq_true, decide_eq_true_eq, hl, if_true] at h
  omega

theorem isPrint_false (tbl : Tables) (htbl : TablesAgree tbl) (c : Char)
    (hne : needsEscape tbl c = true) (hsp : c ≠ space) : IsPrint tbl c = false := by
  have h32 : c.toNat ≠ 32 := fun h => hsp (char_eq_of_toNat h)
  unfold IsPrint
  by_cases hl : c.toNat ≤ 0xFF
  · have h := needsEscape_latin1 tbl c hne hl
    rw [if_pos hl, if_neg (by omega)]
    split
    · simp only [decide_eq_false_iff_not, not_not]; omega
    · rfl
  · rw [if_neg hl]
    exact htbl c (by omega) hne

theorem escapeUnicodeHex_eq (tbl : Tables) (c : Char) (h1 : c ≠ squote) (h2 : c ≠ bslash)
    (hp : IsPrint tbl c = false)
    (hm : c.toNat ≠ 0x07 ∧ c.toNat ≠ 0x08 ∧ c.toNat ≠ 0x0C ∧ c.toNat ≠ 0x0A ∧ c.toNat ≠ 0x0D
      ∧ c.toNat ≠ 0x09 ∧ c.toNat ≠ 0x0B) :
    ∃ k : Nat, k ≤ 8 ∧ c.toNat < 16 ^ k
      ∧ escapeUnicodeHex tbl c
          = some (bslash :: 'u' :: lbrace :: (hexFixed k c.toNat ++ [rbrace])) := by
  obtain ⟨m1, m2, m3, m4, m5, m6, m7⟩ := hm
  have hlt := toNat_lt c
  have key : ∀ (x : Char) (k : Nat), x ≠ squote → runeLen x = 1 →
      (match sliceFrom (Trim (squote :: (bslash :: x :: hexFixed k c.toNat) ++ [squote]) squote) 2
        with
        | some hex => some (bslash :: 'u' :: lbrace :: hex ++ [rbrace])
        | none => none)
      = some (bslash :: 'u' :: lbrace :: (hexFixed k c.toNat ++ [rbrace])) := by
    intro x k hx hr
    rw [Trim_quoted x _ hx (fun d hd => (hexFixed_hex _ _ d hd).2), sliceFrom_two x _ hr]
    rfl
  unfold escapeUnicodeHex QuoteRune escapedRune
  rw [if_neg (by simp [h1, h2]), hp]
  simp only [Bool.false_eq_true, if_false, m1, m2, m3, m4, m5, m6, m7]
  by_cases hx : c.toNat < 0x20 ∨ c.toNat = 0x7F
  · rw [if_pos hx]
    refine ⟨2, by omega, ?_, key 'x' 2 (by decide) (by decide)⟩
    norm_num; omega
  · rw [if_neg hx]
    by_cases hu : c.toNat < 0x10000
    · rw [if_pos hu]
      exact ⟨4, by omega, by norm_num; omega, key 'u' 4 (by decide) (by decide)⟩
    · rw [if_neg hu]
      exact ⟨8, by omega, by norm_num; omega, key 'U' 8 (by decide) (by decide)⟩

theorem run_escape_pair (n i : Nat) (x r : Char) (rest res : Str)
    (hs : simpleEscape x = some r) (hn : i + 2 + rest.length ≤ n) :
    run n i ([bslash, x] ++ rest) false true res
      = run n (i + 2) rest false true (res ++ [r]) :=
  run_dq_simple n i x r rest res (by omega) hs

theorem escapeUnicode_spec (tbl : Tables) (htbl : TablesAgree tbl) (c : Char)
    (hne : needsEscape tbl c = true) (hsp : c ≠ space) :
    ∃ e, escapeUnicode tbl c = some e ∧ ∀ (n i : Nat) (rest res : Str),
      i + e.length + rest.length ≤ n →
      run n i (e ++ rest) false true res
        = run n (i + e.length) rest false true (res ++ [c]) := by
  have mn : ∀ (x : Char) (k : Nat), c.toNat = k → simpleEscape x = some (Char.ofNat k) →
      ∀ (n i : Nat) (rest res : Str), i + [bslash, x].length + rest.length ≤ n →
      run n i ([bslash, x] ++ rest) false true res
        = run n (i + [bslash, x].length) rest false true (res ++ [c]) := by
    intro x k hk hs n i rest res hn
    rw [char_eq_of_toNat hk]
    exact run_escape_pair n i x _ rest res hs hn
  unfold escapeUnicode
  by_cases h1 : c.toNat = 0x07
  · rw [if_pos h1]; exact ⟨_, rfl, mn 'a' _ h1 (by decide)⟩
  rw [if_neg h1]
  by_cases h2 : c.toNat = 0x08
  · rw [if_pos h2]; exact ⟨_, rfl, mn 'b' _ h2 (by decide)⟩
  rw [if_neg h2]
  by_cases h3 : c.toNat = 0x0B
  · rw [if_pos h3]; exact ⟨_, rfl, mn 'v' _ h3 (by decide)⟩
  rw [if_neg h3]
  by_cases h4 : c.toNat = 0x0C
  · rw [if_pos h4]; exact ⟨_, rfl, mn 'f' _ h4 (by decide)⟩
  rw [if_neg h4]
  by_cases h5 : c.toNat = 0x1B
  · rw [if_pos h5]; exact ⟨_, rfl, mn 'e' _ h5 (by decide)⟩
  rw [if_neg h5]
  by_cases h6 : c.toNat = 0x09
  · rw [if_pos h6]; exact ⟨_, rfl, mn 't' _ h6 (by decide)⟩
  rw [if_neg h6]
  by_cases h7 : c.toNat = 0x0D
  · rw [if_pos h7]; exact ⟨_, rfl, mn 'r' _ h7 (by decide)⟩
  rw [if_neg h7]
  by_cases h8 : c.toNat = 0x0A
  · rw [if_pos h8]; exact ⟨_, rfl, mn 'n' _ h8 (by decide)⟩
  rw [if_neg h8]
  have hsq : c ≠ squote := by
    intro h; rw [h, needsEscape_squote] at hne; cases hne
  have hbs : c ≠ bslash := by
    intro h; rw [h, needsEscape_bslash] at hne; cases hne
  obtain ⟨k, hk8, hlt, he⟩ := escapeUnicodeHex_eq tbl c hsq hbs
    (isPrint_false tbl htbl c hne hsp) ⟨h1, h2, h4, h8, h7, h6, h3⟩
  refine ⟨_, he, ?_⟩
  intro n i rest res hn
  have hl := hexFixed_length c.toNat k
  simp only [List.length_cons, List.length_append, List.length_nil, hl] at hn ⊢
  have := run_dq_unicode_hex n i (hexFixed k c.toNat) rest res c (by omega) (by omega)
    (fun d hd => (hexFixed_hex _ _ d hd).1) (hexValue_hexFixed k _ hlt)
  rw [hl] at this
  simp only [List.cons_append, List.append_assoc, List.singleton_append, List.nil_append]
  rw [this]
  congr 1; omega

theorem renderChar_spec (tbl : Tables) (htbl : TablesAgree tbl) (c : Char) :
    ∃ e, renderChar tbl c = some e ∧ ∀ (n i : Nat) (rest res : Str),
      i + e.length + rest.length ≤ n →
      run n i (e ++ rest) false true res
        = run n (i + e.length) rest false true (res ++ [c]) := by
  unfold renderChar
  by_cases h1 : c = dquote
  · rw [if_pos h1, h1]
    exact ⟨_, rfl, fun n i rest res hn => run_escape_pair n i _ _ rest res (by decide) hn⟩
  rw [if_neg h1]
  by_cases h2 : c = bslash
  · rw [if_pos h2, h2]
    exact ⟨_, rfl, fun n i rest res hn => run_escape_pair n i _ _ rest res (by decide) hn⟩
  rw [if_neg h2]
  by_cases h3 : c = space
  · rw [if_pos h3, ← h3]
    exact ⟨_, rfl, fun n i rest res _ => run_dq_lit n i c rest res h1 h2⟩
  rw [if_neg h3]
  by_cases h4 : c = dollar
  · rw [if_pos h4, h4]
    exact ⟨_, rfl, fun n i rest res hn => run_escape_pair n i _ _ rest res (by decide) hn⟩
  rw [if_neg h4]
  by_cases h5 : c = btick
  · rw [if_pos h5, h5]
    exact ⟨_, rfl, fun n i rest res hn => run_escape_pair n i _ _ rest res (by decide) hn⟩
  rw [if_neg h5]
  by_cases h6 : needsEscape tbl c = true
  · rw [if_pos h6]
    exact escapeUnicode_spec tbl htbl c h6 h3
  · rw [if_neg h6]
    exact ⟨_, rfl, fun n i rest res _ => run_dq_lit n i c rest res h1 h2⟩

theorem renderLoop_spec (tbl : Tables) (htbl : TablesAgree tbl) (s : Str) :
    ∀ ret : Str, ∃ body, renderLoop tbl s ret = some (ret ++ body)
      ∧ ∀ (n i : Nat) (rest res : Str), i + body.length + rest.length ≤ n →
        run n i (body ++ rest) false true res
          = run n (i + body.length) rest false true (res ++ s) := by
  induction s with
  | nil =>
    intro ret
    exact ⟨[], by simp [renderLoop], fun n i rest res _ => by simp⟩
  | cons c cs ih =>
    intro ret
    obtain ⟨e, he, hrun⟩ := renderChar_spec tbl htbl c
    obtain ⟨body, hb, hbrun⟩ := ih (ret ++ e)
    refine ⟨e ++ body, ?_, ?_⟩
    · simp only [renderLoop, he, hb, List.append_assoc]
    · intro n i rest res hn
      simp only [List.length_append] at hn
      rw [List.append_assoc, hrun n i (body ++ rest) res (by simp only [List.length_append]; omega),
        hbrun n (i + e.length) rest (res ++ [c]) (by omega)]
      simp only [List.length_append, List.append_assoc, List.singleton_append]
      congr 1; omega

theorem unescape_of_no_quotes (s : Str) (h1 : squote ∉ s) (h2 : dquote ∉ s) :
    Unescape s = .ok s := by
  have h := run_unq_segment (utf8Len s) s [] h1 h2 0 []
  simp only [List.append_nil, List.nil_append] at h
  rw [Unescape_eq_run, h, run_nil]

theorem unescape_of_single_quoted (t : Str) (h : squote ∉ t) :
    Unescape (squote :: t ++ [squote]) = .ok t := by
  rw [Unescape_eq_run, List.cons_append, run_unq_squote, run_sq_segment _ t [squote] false h,
    run_sq_close, run_nil]
  simp

theorem unescape_of_rendered (body s : Str)
    (h : ∀ (n i : Nat) (rest res : Str), i + body.length + rest.length ≤ n →
        run n i (body ++ rest) false true res
          = run n (i + body.length) rest false true (res ++ s)) :
    Unescape ([dquote] ++ body ++ [dquote]) = .ok s := by
  have hn := length_le_utf8Len (dquote :: (body ++ [dquote]))
  simp only [List.length_cons, List.length_append, List.length_nil] at hn
  rw [Unescape_eq_run]
  simp only [List.singleton_append, List.cons_append, List.nil_append]
  rw [run_unq_dquote, h _ _ _ _ (by simp only [List.length_cons, List.length_nil]; omega),
    run_dq_close, run_nil]
  simp

theorem quoteTrigger_squote (tbl : Tables) : quoteTrigger tbl squote = true := rfl
theorem quoteTrigger_dquote (tbl : Tables) : quoteTrigger tbl dquote = true := rfl
theorem singleQuoteBlocker_squote (tbl : Tables) : singleQuoteBlocker tbl squote = true := rfl

theorem not_mem_of_all_false (p : Char → Bool) (x : Char) (hx : p x = true) (s : Str)
    (h : s.any p = false) : x ∉ s := by
  intro hm
  rw [List.any_eq_false] at h
  exact h x hm hx

theorem tablesAgree_emptyTable : TablesAgree emptyTable := fun _ _ _ => rfl

theorem trailing_backslash_outcome (p : Str) (h1 : dquote ∉ p) (h2 : bslash ∉ p) :
    Unescape (dquote :: p ++ [bslash])
      = if utf8Len p = p.length then .error (.invalidBackslashEscape (p.length + 1))
        else .panic := by
  rw [Unescape_eq_run, List.cons_append, run_unq_dquote, run_dq_segment _ p [bslash] h1 h2]
  have hl := length_le_utf8Len p
  have hn : utf8Len (dquote :: (p ++ [bslash])) = utf8Len p + 2 := by
    rw [utf8Len_cons, utf8Len_append, utf8Len_cons]
    have h3 : runeLen dquote = 1 := by decide
    have h4 : runeLen bslash = 1 := by decide
    have h5 : utf8Len [] = 0 := rfl
    omega
  have hi : 0 + 1 + p.length = p.length + 1 := by omega
  rw [hn, hi]
  split
  · rename_i he
    exact run_dq_trailing _ _ _ _ (by omega)
  · rename_i he
    exact run_dq_panic _ _ _ (by omega)

/-! ## Payloads of Unicode escapes -/

theorem unhex_none_of_not_hex (c : Char) (h : c ∉ hexChars) : unhex c = none := by
  have hc : c = Char.ofNat c.toNat := (Char.ofNat_toNat c).symm
  unfold unhex
  split
  · rename_i h1
    exfalso; apply h; rw [hc]
    generalize c.toNat = n at h1
    obtain ⟨h2, h3⟩ := h1
    interval_cases n <;> decide
  · split
    · rename_i h1
      exfalso; apply h; rw [hc]
      generalize c.toNat = n at h1
      obtain ⟨h2, h3⟩ := h1
      interval_cases n <;> decide
    · split
      · rename_i h1
        exfalso; apply h; rw [hc]
        generalize c.toNat = n at h1
        obtain ⟨h2, h3⟩ := h1
        interval_cases n <;> decide
      · rfl

theorem unhexRun_nonhex : ∀ (n : Nat) (f : Str) (v : Nat), (∃ c ∈ f, unhex c = none) →
    unhexRun n f v = none ∨ ∃ v1 tail, unhexRun n f v = some (v1, tail) ∧ tail ≠ [] := by
  intro n
  induction n with
  | zero =>
    intro f v ⟨c, hc, _⟩
    right
    exact ⟨v, f, by simp [unhexRun], List.ne_nil_of_mem hc⟩
  | succ n ih =>
    intro f v ⟨c, hc, hn⟩
    cases f with
    | nil => simp at hc
    | cons d s =>
      cases hd : unhex d with
      | none => left; simp [unhexRun, hd]
      | some x =>
        simp only [unhexRun, hd]
        apply ih
        rcases List.mem_cons.mp hc with h | h
        · rw [h, hd] at hn; cases hn
        · exact ⟨c, h, hn⟩

theorem unhexRun_bytes : ∀ (n : Nat) (f : Str) (v v1 : Nat) (tail : Str),
    unhexRun n f v = some (v1, tail) → utf8Len f = n + utf8Len tail := by
  intro n
  induction n with
  | zero =>
    intro f v v1 tail h
    simp only [unhexRun, Option.some.injEq, Prod.mk.injEq] at h
    rw [h.2]; omega
  | succ n ih =>
    intro f v v1 tail h
    cases f with
    | nil => simp [unhexRun] at h
    | cons d s =>
      cases hd : unhex d with
      | none => simp [unhexRun, hd] at h
      | some x =>
        simp only [unhexRun, hd] at h
        have h1 := ih s _ v1 tail h
        have hm : d ∈ hexChars := by
          by_contra hcon
          rw [unhex_none_of_not_hex d hcon] at hd; cases hd
        rw [utf8Len_cons, (hexChars_facts d hm).2.1, h1]; omega

theorem utf8Len_eq_zero (s : Str) (h : utf8Len s = 0) : s = [] := by
  have := length_le_utf8Len s
  exact List.length_eq_zero.mp (by omega)

theorem utf8Len_padFragment (h : Str) :
    utf8Len (padFragment h) = max 8 (utf8Len h) := by
  unfold padFragment
  rw [utf8Len_append, utf8Len_zeros]; omega

theorem UnquoteChar_tail_nil (h : Str) (hl : utf8Len h ≤ 8) (v : Char) (tail : Str)
    (hu : UnquoteChar (padFragment h) = some (v, tail)) : tail = [] := by
  have hp := utf8Len_padFragment h
  unfold UnquoteChar at hu
  split at hu
  · cases hu
  · split at hu
    · cases hu
    · rename_i v1 tail1 hr
      split at hu
      · simp only [Option.some.injEq, Prod.mk.injEq] at hu
        have hb := unhexRun_bytes 8 _ 0 v1 tail1 hr
        rw [← hu.2]
        exact utf8Len_eq_zero _ (by omega)
      · cases hu

theorem parseUnicodeSeq_fragment (i : Nat) (h rest : Str) (hb : rbrace ∉ h) :
    parseUnicodeSeq i ('u' :: lbrace :: (h ++ rbrace :: rest))
      = match UnquoteChar (padFragment h) with
        | some (val, tail) =>
          if tail ≠ [] then .error (.fragmentTail (padFragment h) (i + 2 + h.length))
          else .ok ([val], i + 2 + h.length, rbrace :: rest)
        | none => .error (.fragmentSyntax (padFragment h) (i + 2 + h.length)) := by
  have hp : ∀ a ∈ h, (fun x => decide (x ≠ rbrace)) a = true := by
    intro a ha
    simp only [decide_eq_true_eq]
    intro he; exact hb (he ▸ ha)
  have ht : List.takeWhile (fun x => decide (x ≠ rbrace)) (h ++ rbrace :: rest) = h := by
    rw [List.takeWhile_append_of_pos hp]; simp
  have hd : List.dropWhile (fun x => decide (x ≠ rbrace)) (h ++ rbrace :: rest)
      = rbrace :: rest := by
    rw [List.dropWhile_append_of_pos hp]; simp
  unfold parseUnicodeSeq
  simp only [List.tail_cons, List.length_cons, ht, hd]
  rw [if_neg (by simp), if_neg (by simp), if_neg (by simp)]

theorem validRune_false (v : Nat)
    (h : (0xD800 ≤ v ∧ v ≤ 0xDFFF) ∨ 0x10FFFF < v) : validRune v = false := by
  unfold validRune
  simp only [Bool.or_eq_false_iff, Bool.and_eq_false_iff, decide_eq_false_iff_not]
  omega

theorem UnquoteChar_invalid (h : Str) (hlen : h.length ≤ 8) (hhex : ∀ c ∈ h, c ∈ hexChars)
    (hv : (0xD800 ≤ hexValue h ∧ hexValue h ≤ 0xDFFF) ∨ 0x10FFFF < hexValue h) :
    UnquoteChar (padFragment h) = none := by
  have hu := utf8Len_hex h hhex
  have hr := unhexRun_hex [] h hhex 0
  rw [List.append_nil] at hr
  have hz := unhexRun_zeros h.length h (8 - h.length)
  have h8 : 8 - h.length + h.length = 8 := by omega
  rw [h8, hr] at hz
  unfold UnquoteChar padFragment
  rw [hu, utf8Len_append, utf8Len_zeros, hu, if_neg (by omega), hz]
  change (if validRune (hexValue h) = true then some (Char.ofNat (hexValue h), []) else none) = _
  rw [validRune_false _ hv]
  rfl

theorem UnquoteChar_nonhex (f : Str) (hf : ∃ c ∈ f, unhex c = none) :
    UnquoteChar f = none ∨ ∃ v tail, UnquoteChar f = some (v, tail) ∧ tail ≠ [] := by
  unfold UnquoteChar
  split
  · left; rfl
  · rcases unhexRun_nonhex 8 f 0 hf with h | ⟨v1, tail, h, ht⟩
    · left; rw [h]
    · rw [h]
      by_cases hv : validRune v1 = true
      · right; exact ⟨Char.ofNat v1, tail, by simp [hv], ht⟩
      · left; simp [hv]

theorem unescape_unicode_payload (h : Str) (hb : rbrace ∉ h) :
    Unescape (dquote :: bslash :: 'u' :: lbrace :: h ++ [rbrace, dquote])
      = match parseUnicodeSeq 2 ('u' :: lbrace :: (h ++ rbrace :: [dquote])) with
        | .error err => .error err
        | .ok (ch, _, _) => .ok ch := by
  have hn := length_le_utf8Len (dquote :: bslash :: 'u' :: lbrace :: (h ++ [rbrace, dquote]))
  simp only [List.length_cons, List.length_append, List.length_nil] at hn
  rw [Unescape_eq_run]
  simp only [List.cons_append]
  rw [run_unq_dquote]
  cases hp : parseUnicodeSeq 2 ('u' :: lbrace :: (h ++ rbrace :: [dquote])) with
  | error err =>
    exact run_dq_unicode_error _ _ _ _ err (by omega) hp
  | ok r =>
    obtain ⟨ch, newI, restNew⟩ := r
    have hp2 := hp
    rw [parseUnicodeSeq_fragment 2 h [dquote] hb] at hp2
    split at hp2
    · split at hp2
      · cases hp2
      · simp only [Except.ok.injEq, Prod.mk.injEq] at hp2
        obtain ⟨h1, h2, h3⟩ := hp2
        rw [run_dq_unicode _ _ _ _ ch restNew newI (by omega) hp, ← h3]
        simp only [List.tail_cons]
        rw [run_dq_close, run_nil]
        simp
    · cases hp2

/-! ## The escape formatter and the size of the output -/

theorem escapeUnicodeHex_width (tbl : Tables) (c : Char) (h1 : c ≠ squote)
    (h2 : c ≠ bslash) (hp : IsPrint tbl c = false)
    (hm : c.toNat ≠ 0x07 ∧ c.toNat ≠ 0x08 ∧ c.toNat ≠ 0x0C ∧ c.toNat ≠ 0x0A ∧ c.toNat ≠ 0x0D
      ∧ c.toNat ≠ 0x09 ∧ c.toNat ≠ 0x0B) :
    escapeUnicodeHex tbl c
      = some (bslash :: 'u' :: lbrace :: (hexFixed (hexWidth c) c.toNat ++ [rbrace])) := by
  obtain ⟨m1, m2, m3, m4, m5, m6, m7⟩ := hm
  have key : ∀ (x : Char) (k : Nat), x ≠ squote → runeLen x = 1 →
      (match sliceFrom (Trim (squote :: (bslash :: x :: hexFixed k c.toNat) ++ [squote]) squote) 2
        with
        | some hex => some (bslash :: 'u' :: lbrace :: hex ++ [rbrace])
        | none => none)
      = some (bslash :: 'u' :: lbrace :: (hexFixed k c.toNat ++ [rbrace])) := by
    intro x k hx hr
    rw [Trim_quoted x _ hx (fun d hd => (hexFixed_hex _ _ d hd).2), sliceFrom_two x _ hr]
    rfl
  unfold escapeUnicodeHex QuoteRune escapedRune hexWidth
  rw [if_neg (by simp [h1, h2]), hp]
  simp only [Bool.false_eq_true, if_false, m1, m2, m3, m4, m5, m6, m7]
  by_cases hx : c.toNat < 0x20 ∨ c.toNat = 0x7F
  · rw [if_pos hx, if_pos hx]
    exact key 'x' 2 (by decide) (by decide)
  · rw [if_neg hx, if_neg hx]
    by_cases hu : c.toNat < 0x10000
    · rw [if_pos hu, if_pos hu]
      exact key 'u' 4 (by decide) (by decide)
    · rw [if_neg hu, if_neg hu]
      exact key 'U' 8 (by decide) (by decide)

theorem hexWidth_le (c : Char) : hexWidth c ≤ 8 ∧ c.toNat < 16 ^ hexWidth c := by
  have := toNat_lt c
  unfold hexWidth
  split
  · constructor
    · omega
    · norm_num; omega
  · split
    · constructor
      · omega
      · norm_num; omega
    · constructor
      · omega
      · norm_num; omega

theorem toNat_ne_of_not_mnemonic (c : Char) (h : c ∉ mnemonicControls) :
    c.toNat ≠ 0x07 ∧ c.toNat ≠ 0x08 ∧ c.toNat ≠ 0x0B ∧ c.toNat ≠ 0x0C ∧ c.toNat ≠ 0x0A
      ∧ c.toNat ≠ 0x0D ∧ c.toNat ≠ 0x09 ∧ c.toNat ≠ 0x1B := by
  have key : ∀ k : Nat, Char.ofNat k ∈ mnemonicControls → c.toNat ≠ k := by
    intro k hk he
    exact h (char_eq_of_toNat he ▸ hk)
  exact ⟨key _ (by decide), key _ (by decide), key _ (by decide), key _ (by decide),
    key _ (by decide), key _ (by decide), key _ (by decide), key _ (by decide)⟩

theorem escapeUnicode_hex_form (tbl : Tables) (htbl : TablesAgree tbl) (c : Char)
    (hne : needsEscape tbl c = true) (hsp : c ≠ space) (hm : c ∉ mnemonicControls) :
    escapeUnicode tbl c
      = some (bslash :: 'u' :: lbrace :: (hexFixed (hexWidth c) c.toNat ++ [rbrace])) := by
  obtain ⟨m1, m2, m3, m4, m5, m6, m7, m8⟩ := toNat_ne_of_not_mnemonic c hm
  have hsq : c ≠ squote := by
    intro h; rw [h, needsEscape_squote] at hne; cases hne
  have hbs : c ≠ bslash := by
    intro h; rw [h, needsEscape_bslash] at hne; cases hne
  unfold escapeUnicode
  rw [if_neg m1, if_neg m2, if_neg m3, if_neg m4, if_neg m8, if_neg m7, if_neg m6, if_neg m5]
  exact escapeUnicodeHex_width tbl c hsq hbs (isPrint_false tbl htbl c hne hsp)
    ⟨m1, m2, m4, m5, m6, m7, m3⟩

theorem renderChar_length (tbl : Tables) (htbl : TablesAgree tbl) (c : Char) :
    ∃ e, renderChar tbl c = some e ∧ e.length ≤ 12 := by
  unfold renderChar
  by_cases h1 : c = dquote
  · rw [if_pos h1]; exact ⟨_, rfl, by simp⟩
  rw [if_neg h1]
  by_cases h2 : c = bslash
  · rw [if_pos h2]; exact ⟨_, rfl, by simp⟩
  rw [if_neg h2]
  by_cases h3 : c = space
  · rw [if_pos h3]; exact ⟨_, rfl, by simp⟩
  rw [if_neg h3]
  by_cases h4 : c = dollar
  · rw [if_pos h4]; exact ⟨_, rfl, by simp⟩
  rw [if_neg h4]
  by_cases h5 : c = btick
  · rw [if_pos h5]; exact ⟨_, rfl, by simp⟩
  rw [if_neg h5]
  by_cases h6 : needsEscape tbl c = true
  · rw [if_pos h6]
    by_cases hm : c ∈ mnemonicControls
    · have hc : c = Char.ofNat 0x07 ∨ c = Char.ofNat 0x08 ∨ c = Char.ofNat 0x0B
          ∨ c = Char.ofNat 0x0C ∨ c = Char.ofNat 0x0A ∨ c = Char.ofNat 0x0D
          ∨ c = Char.ofNat 0x09 ∨ c = Char.ofNat 0x1B := by
        simpa [mnemonicControls] using hm
      rcases hc with h | h | h | h | h | h | h | h <;> subst h <;> exact ⟨_, rfl, by simp⟩
    · refine ⟨_, escapeUnicode_hex_form tbl htbl c h6 h3 hm, ?_⟩
      have := (hexWidth_le c).1
      simp only [List.length_cons, List.length_append, List.length_nil, hexFixed_length]
      omega
  · rw [if_neg h6]; exact ⟨_, rfl, by simp⟩

theorem renderLoop_length (tbl : Tables) (htbl : TablesAgree tbl) (s : Str) :
    ∀ ret : Str, ∃ body, renderLoop tbl s ret = some (ret ++ body)
      ∧ body.length ≤ 12 * s.length := by
  induction s with
  | nil => intro ret; exact ⟨[], by simp [renderLoop], by simp⟩
  | cons c cs ih =>
    intro ret
    obtain ⟨e, he, hl⟩ := renderChar_length tbl htbl c
    obtain ⟨body, hb, hbl⟩ := ih (ret ++ e)
    refine ⟨e ++ body, ?_, ?_⟩
    · simp only [renderLoop, he, hb, List.append_assoc]
    · simp only [List.length_append, List.length_cons]; omega

theorem classifyAll_eq (tbl : Tables) (s : Str) : ∀ flags : Bool × Bool,
    classifyAll tbl s flags
      = (flags.1 || s.any (quoteTrigger tbl), flags.2 && !s.any (singleQuoteBlocker tbl)) := by
  induction s with
  | nil => intro flags; simp [classifyAll]
  | cons c cs ih =>
    intro flags
    simp only [classifyAll, ih, classifyStep_eq, List.any_cons, Bool.or_assoc, Bool.not_or,
      Bool.and_assoc]

/-! ## The loop of `Unescape` as a state machine -/

theorem scan_step (n k : Nat) (st : ScanState) :
    scan n (k + 1) st.i st.rest st.inSingleQuote st.inDoubleQuote st.res
      = match step n st with
        | .ret o => o
        | .goto st1 => scan n k st1.i st1.rest st1.inSingleQuote st1.inDoubleQuote st1.res := by
  obtain ⟨i, rest, s, d, res⟩ := st
  cases rest with
  | nil => simp [scan, step]
  | cons c rest =>
    simp only [scan, step]
    split
    · rfl
    split
    · rfl
    split
    · rfl
    split
    · split
      · rfl
      · cases rest with
        | nil => rfl
        | cons e rest1 =>
          simp only []
          split
          · split <;> rfl
          · split <;> rfl
    split
    · rfl
    split
    · rfl
    split
    · rfl
    · rfl

theorem step_exclusive (n : Nat) (st st1 : ScanState) (hs : step n st = .goto st1)
    (h : (st.inSingleQuote && st.inDoubleQuote) = false) :
    (st1.inSingleQuote && st1.inDoubleQuote) = false := by
  obtain ⟨i, rest, s, d, res⟩ := st
  cases rest with
  | nil => simp [step] at hs
  | cons c rest =>
    simp only [step] at hs
    simp only at h
    split at hs
    · cases hs; simp
    split at hs
    · cases hs; exact h
    split at hs
    · cases hs; simp
    split at hs
    · split at hs
      · cases hs
      · cases rest with
        | nil => cases hs
        | cons e rest1 =>
          simp only [] at hs
          split at hs
          · split at hs
            · cases hs
            · cases hs; exact h
          · split at hs
            · cases hs; exact h
            · cases hs
    split at hs
    · cases hs; exact h
    split at hs
    · cases hs; simp_all
    split at hs
    · cases hs; simp_all
    · cases hs; exact h

theorem span_rbrace : ∀ r2 : Str, List.dropWhile (fun x => decide (x ≠ rbrace)) r2 ≠ [] →
    ∃ rest1, r2 = List.takeWhile (fun x => decide (x ≠ rbrace)) r2 ++ rbrace :: rest1
      ∧ List.dropWhile (fun x => decide (x ≠ rbrace)) r2 = rbrace :: rest1
      ∧ rbrace ∉ List.takeWhile (fun x => decide (x ≠ rbrace)) r2 := by
  intro r2
  induction r2 with
  | nil => intro h; simp at h
  | cons c cs ih =>
    intro h
    by_cases hc : c = rbrace
    · subst hc
      exact ⟨cs, by simp, by simp, by simp⟩
    · have hd : List.dropWhile (fun x => decide (x ≠ rbrace)) (c :: cs)
          = List.dropWhile (fun x => decide (x ≠ rbrace)) cs := by
        simp [List.dropWhile, hc]
      have ht : List.takeWhile (fun x => decide (x ≠ rbrace)) (c :: cs)
          = c :: List.takeWhile (fun x => decide (x ≠ rbrace)) cs := by
        simp [List.takeWhile, hc]
      rw [hd] at h
      obtain ⟨rest1, h1, h2, h3⟩ := ih h
      refine ⟨rest1, ?_, ?_, ?_⟩
      · rw [ht, List.cons_append, ← h1]
      · rw [hd, h2]
      · rw [ht]
        simp only [List.mem_cons, not_or]
        exact ⟨fun he => hc he.symm, h3⟩

theorem parseUnicodeSeq_shape (i : Nat) (e : Char) (rest1 ch restNew : Str) (newI : Nat)
    (h : parseUnicodeSeq i (e :: rest1) = .ok (ch, newI, restNew)) :
    ∃ hx rest2, rest1 = lbrace :: (hx ++ rbrace :: rest2) ∧ rbrace ∉ hx
      ∧ restNew = rbrace :: rest2 ∧ newI = i + 2 + hx.length := by
  unfold parseUnicodeSeq at h
  simp only [List.tail_cons] at h
  split at h
  · cases h
  · cases rest1 with
    | nil => cases h
    | cons c r2 =>
      simp only [] at h
      split at h
      · cases h
      · rename_i hc
        simp only [ne_eq, not_not] at hc
        split at h
        · cases h
        · rename_i hd
          obtain ⟨rest2, h1, h2, h3⟩ := span_rbrace r2 hd
          split at h
          · split at h
            · cases h
            · simp only [Except.ok.injEq, Prod.mk.injEq] at h
              obtain ⟨-, hi, hr⟩ := h
              refine ⟨_, rest2, ?_, h3, ?_, ?_⟩
              · rw [hc, ← h1]
              · rw [← hr, h2]
              · rw [← hi]
          · cases h

theorem parseUnicodeSeq_append (i : Nat) (rest1 ch restNew : Str) (newI : Nat)
    (h : parseUnicodeSeq i ('u' :: rest1) = .ok (ch, newI, restNew)) (o : Nat) (y : Str) :
    parseUnicodeSeq (i + o) ('u' :: (rest1 ++ y)) = .ok (ch, newI + o, restNew ++ y)
      ∧ restNew ≠ [] ∧ newI + restNew.length = i + 1 + rest1.length := by
  obtain ⟨hx, rest2, h1, h2, h3, h4⟩ := parseUnicodeSeq_shape i 'u' rest1 ch restNew newI h
  subst h1 h3 h4
  refine ⟨?_, by simp, ?_⟩
  · rw [parseUnicodeSeq_fragment i hx rest2 h2] at h
    have e1 : lbrace :: (hx ++ rbrace :: rest2) ++ y = lbrace :: (hx ++ rbrace :: (rest2 ++ y)) := by
      simp
    rw [e1, parseUnicodeSeq_fragment (i + o) hx (rest2 ++ y) h2]
    cases hu : UnquoteChar (padFragment hx) with
    | none => rw [hu] at h; cases h
    | some r =>
      obtain ⟨val, tail⟩ := r
      rw [hu] at h
      simp only at h ⊢
      split at h
      · cases h
      · rename_i ht
        rw [if_neg ht]
        simp only [Except.ok.injEq, Prod.mk.injEq] at h
        rw [← h.1]
        simp only [List.cons_append, Except.ok.injEq, Prod.mk.injEq, true_and, and_true]
        omega
  · simp only [List.length_cons, List.length_append]
    omega

theorem step_ret_ok (n : Nat) (st : ScanState) (r : Str) (h : step n st = .ret (.ok r)) :
    st.rest = [] := by
  obtain ⟨i, rest, s, d, res⟩ := st
  cases rest with
  | nil => rfl
  | cons c rest =>
    exfalso
    simp only [step] at h
    split at h
    · cases h
    split at h
    · cases h
    split at h
    · cases h
    split at h
    · split at h
      · cases h
      · cases rest with
        | nil => cases h
        | cons e rest1 =>
          simp only [] at h
          split at h
          · split at h <;> cases h
          · split at h <;> cases h
    split at h
    · cases h
    split at h
    · cases h
    split at h
    · cases h
    · cases h

theorem step_goto_append (n n2 o : Nat) (st st2 : ScanState) (y r0 : Str)
    (hs : step n st = .goto st2) (hb : st.i + o + st.rest.length + y.length ≤ n2) :
    run n2 (st.i + o) (st.rest ++ y) st.inSingleQuote st.inDoubleQuote (r0 ++ st.res)
        = run n2 (st2.i + o) (st2.rest ++ y) st2.inSingleQuote st2.inDoubleQuote (r0 ++ st2.res)
      ∧ st2.i + st2.rest.length = st.i + st.rest.length := by
  obtain ⟨i, rest, s, d, res⟩ := st
  cases rest with
  | nil => simp [step] at hs
  | cons c rest =>
    simp only [step] at hs
    simp only [List.length_cons] at hb
    simp only [List.cons_append, List.length_cons]
    have e1 : i + 1 + o = i + o + 1 := by omega
    by_cases c1 : s = true ∧ c = squote
    · rw [if_pos c1] at hs
      cases hs
      dsimp only
      obtain ⟨rfl, rfl⟩ := c1
      exact ⟨by rw [run_sq_close, e1], by omega⟩
    rw [if_neg c1] at hs
    by_cases c2 : s = true
    · rw [if_pos c2] at hs
      cases hs
      dsimp only
      subst c2
      have hc : c ≠ squote := fun h => c1 ⟨rfl, h⟩
      exact ⟨by rw [run_sq_lit _ _ _ _ _ _ hc, e1, List.append_assoc], by omega⟩
    rw [if_neg c2] at hs
    have hsf : s = false := by simpa using c2
    subst hsf
    by_cases c3 : d = true ∧ c = dquote
    · rw [if_pos c3] at hs
      cases hs
      dsimp only
      obtain ⟨rfl, rfl⟩ := c3
      exact ⟨by rw [run_dq_close, e1], by omega⟩
    rw [if_neg c3] at hs
    by_cases c4 : d = true ∧ c = bslash
    · rw [if_pos c4] at hs
      obtain ⟨rfl, rfl⟩ := c4
      split at hs
      · cases hs
      · cases rest with
        | nil => cases hs
        | cons e rest1 =>
          simp only [] at hs
          simp only [List.length_cons] at hb
          simp only [List.cons_append, List.length_cons]
          by_cases hu : e = 'u'
          · rw [if_pos hu] at hs
            subst hu
            cases hp : parseUnicodeSeq (i + 1) ('u' :: rest1) with
            | error err => rw [hp] at hs; cases hs
            | ok r =>
              obtain ⟨ch, newI, restNew⟩ := r
              rw [hp] at hs
              cases hs
              dsimp only
              obtain ⟨h1, h2, h3⟩ := parseUnicodeSeq_append (i + 1) rest1 ch restNew newI hp o y
              have e2 : i + 1 + o = i + o + 1 := by omega
              rw [e2] at h1
              obtain ⟨x, xs, rfl⟩ := List.exists_cons_of_ne_nil h2
              simp only [List.length_cons] at h3
              refine ⟨?_, ?_⟩
              · rw [run_dq_unicode n2 (i + o) (rest1 ++ y) (r0 ++ res) ch _ _ (by omega) h1]
                simp only [List.cons_append, List.tail_cons, List.append_assoc]
                congr 1; omega
              · simp only [List.tail_cons]; omega
          · rw [if_neg hu] at hs
            cases he : simpleEscape e with
            | none => rw [he] at hs; cases hs
            | some r =>
              rw [he] at hs
              cases hs
              dsimp only
              refine ⟨?_, by omega⟩
              rw [run_dq_simple n2 (i + o) e r (rest1 ++ y) (r0 ++ res) (by omega) he,
                List.append_assoc]
              congr 1; omega
    rw [if_neg c4] at hs
    by_cases c5 : d = true
    · rw [if_pos c5] at hs
      cases hs
      dsimp only
      subst c5
      have h1 : c ≠ dquote := fun h => c3 ⟨rfl, h⟩
      have h2 : c ≠ bslash := fun h => c4 ⟨rfl, h⟩
      exact ⟨by rw [run_dq_lit _ _ _ _ _ h1 h2, e1, List.append_assoc], by omega⟩
    rw [if_neg c5] at hs
    have hdf : d = false := by simpa using c5
    subst hdf
    by_cases c6 : c = squote
    · rw [if_pos c6] at hs
      cases hs
      dsimp only
      subst c6
      exact ⟨by rw [run_unq_squote, e1], by omega⟩
    rw [if_neg c6] at hs
    by_cases c7 : c = dquote
    · rw [if_pos c7] at hs
      cases hs
      dsimp only
      subst c7
      exact ⟨by rw [run_unq_dquote, e1], by omega⟩
    rw [if_neg c7] at hs
    cases hs
    dsimp only
    exact ⟨by rw [run_unq_lit _ _ _ _ _ c6 c7, e1, List.append_assoc], by omega⟩

theorem finalState_append (n : Nat) : ∀ (k : Nat) (st st1 : ScanState),
    finalState n k st = some st1 →
    (st1.rest = [] ∧ st1.i + st1.rest.length = st.i + st.rest.length)
      ∧ ∀ (n2 o : Nat) (y r0 : Str), st.i + o + st.rest.length + y.length ≤ n2 →
        run n2 (st.i + o) (st.rest ++ y) st.inSingleQuote st.inDoubleQuote (r0 ++ st.res)
          = run n2 (st1.i + o) y st1.inSingleQuote st1.inDoubleQuote (r0 ++ st1.res) := by
  intro k
  induction k with
  | zero => intro st st1 h; simp [finalState] at h
  | succ k ih =>
    intro st st1 h
    simp only [finalState] at h
    cases hs : step n st with
    | ret o =>
      rw [hs] at h
      cases o with
      | ok r =>
        simp only [Option.some.injEq] at h
        subst h
        have hr := step_ret_ok n st r hs
        refine ⟨⟨hr, rfl⟩, ?_⟩
        intro n2 o y r0 _
        rw [hr, List.nil_append]
      | error e => cases h
      | panic => cases h
      | fuel => cases h
    | goto st2 =>
      rw [hs] at h
      obtain ⟨⟨h1, h2⟩, h3⟩ := ih st2 st1 h
      have hpos := (step_goto_append n (st.i + 0 + st.rest.length + ([] : Str).length) 0
        st st2 [] [] hs (le_refl _)).2
      refine ⟨⟨h1, by omega⟩, ?_⟩
      intro n2 o y r0 hb
      obtain ⟨g1, g2⟩ := step_goto_append n n2 o st st2 y r0 hs hb
      rw [g1]
      exact h3 n2 o y r0 (by omega)

theorem finalState_of_scan_ok (n : Nat) : ∀ (k : Nat) (st : ScanState) (r : Str),
    scan n k st.i st.rest st.inSingleQuote st.inDoubleQuote st.res = .ok r →
    ∃ st1, finalState n k st = some st1 ∧ st1.res = r := by
  intro k
  induction k with
  | zero => intro st r h; simp [scan] at h
  | succ k ih =>
    intro st r h
    rw [scan_step] at h
    simp only [finalState]
    cases hs : step n st with
    | ret o =>
      rw [hs] at h
      simp only at h
      subst h
      have hr := step_ret_ok n st r hs
      refine ⟨st, rfl, ?_⟩
      obtain ⟨i, rest, s, d, res⟩ := st
      simp only at hr
      subst hr
      simp only [step, Step.ret.injEq, Outcome.ok.injEq] at hs
      exact hs
    | goto st2 =>
      rw [hs] at h
      exact ih st2 r h

theorem scan_ok_of_finalState (n : Nat) : ∀ (k : Nat) (st st1 : ScanState),
    finalState n k st = some st1 →
    scan n k st.i st.rest st.inSingleQuote st.inDoubleQuote st.res = .ok st1.res := by
  intro k
  induction k with
  | zero => intro st st1 h; simp [finalState] at h
  | succ k ih =>
    intro st st1 h
    rw [scan_step]
    simp only [finalState] at h
    cases hs : step n st with
    | ret o =>
      rw [hs] at h
      cases o with
      | ok r =>
        simp only [Option.some.injEq] at h
        subst h
        have hr := step_ret_ok n st r hs
        obtain ⟨i, rest, s, d, res⟩ := st
        simp only at hr
        subst hr
        simp only [step, Step.ret.injEq, Outcome.ok.injEq] at hs
        simp only [hs]
      | error e => cases h
      | panic => cases h
      | fuel => cases h
    | goto st2 =>
      rw [hs] at h
      exact ih st2 st1 h

theorem unescape_join (a b rb : Str) (st : ScanState) (ha : scanEnd a = some st)
    (hs : st.inSingleQuote = false) (hd : st.inDoubleQuote = false)
    (hb : Unescape b = .ok rb) :
    Unescape a = .ok st.res ∧ Unescape (a ++ b) = .ok (st.res ++ rb) := by
  constructor
  · exact scan_ok_of_finalState _ _ _ _ ha
  · obtain ⟨⟨ha1, ha2⟩, ha3⟩ := finalState_append _ _ _ _ ha
    obtain ⟨stb, hb1, hb2⟩ := finalState_of_scan_ok (utf8Len b) (b.length + 1) (initState b) rb hb
    obtain ⟨⟨hb3, hb4⟩, hb5⟩ := finalState_append _ _ _ _ hb1
    have hn := length_le_utf8Len (a ++ b)
    simp only [List.length_append] at hn
    simp only [initState, ha1, List.length_nil] at ha2 hb4
    have g1 := ha3 (utf8Len (a ++ b)) 0 b [] (by simp only [initState]; omega)
    have g2 := hb5 (utf8Len (a ++ b)) st.i [] st.res (by simp only [initState, List.length_nil]; omega)
    simp only [initState, Nat.add_zero, Nat.zero_add, List.nil_append, List.append_nil, hs, hd]
      at g1 g2
    rw [Unescape_eq_run, g1, g2, run_nil, hb2]

/-! ## Closed examples and further facts on payloads -/

theorem lowerhex_lower : ∀ n : Nat, n < 16 → lowerhex n ∈ lowerHexChars := by
  decide

theorem hexFixed_lower (r : Nat) : ∀ k : Nat, ∀ c ∈ hexFixed k r, c ∈ lowerHexChars := by
  intro k
  induction k with
  | zero => intro c hc; simp [hexFixed] at hc
  | succ k ih =>
    intro c hc
    simp only [hexFixed, List.mem_cons] at hc
    rcases hc with hc | hc
    · rw [hc]; exact lowerhex_lower _ (Nat.mod_lt _ (by norm_num))
    · exact ih c hc

theorem UnquoteChar_long (h8 e : Str) (hlen : h8.length = 8) (hhex : ∀ c ∈ h8, c ∈ hexChars)
    (hv : hexValue h8 < 0xD800 ∨ (0xDFFF < hexValue h8 ∧ hexValue h8 ≤ 0x10FFFF)) :
    padFragment (h8 ++ e) = h8 ++ e
      ∧ UnquoteChar (h8 ++ e) = some (Char.ofNat (hexValue h8), e) := by
  have hu := utf8Len_hex h8 hhex
  have hr := unhexRun_hex e h8 hhex 0
  rw [hlen] at hr
  have hval : validRune (hexValue h8) = true := by
    unfold validRune
    simp only [Bool.or_eq_true, Bool.and_eq_true, decide_eq_true_eq]
    omega
  constructor
  · unfold padFragment
    rw [utf8Len_append, hu, hlen]
    have : 8 - (8 + utf8Len e) = 0 := by omega
    rw [this]; rfl
  · unfold UnquoteChar
    rw [utf8Len_append, hu, hlen, if_neg (by omega), hr]
    change (if validRune (hexValue h8) = true then some (Char.ofNat (hexValue h8), e) else none) = _
    rw [hval, if_pos rfl]

theorem tablesAgree_sampleTable : TablesAgree sampleTable := fun _ _ _ => rfl

/-- Closed evaluations of `Escape`: an unassigned code point under tables that count it
in `unicode.Other`, and the zero-padded escapes of U+00A0, U+0001 and U+202E. -/
theorem escape_examples :
    Escape sampleTable [Char.ofNat 0x378]
        = some [dquote, bslash, 'u', lbrace, '0', '3', '7', '8', rbrace, dquote]
      ∧ Escape sampleTable ['a', space, 'b', Char.ofNat 0x378]
        = some [dquote, 'a', space, 'b', bslash, 'u', lbrace, '0', '3', '7', '8', rbrace, dquote]
      ∧ Escape emptyTable [Char.ofNat 0xA0]
        = some [dquote, bslash, 'u', lbrace, '0', '0', 'a', '0', rbrace, dquote]
      ∧ Escape emptyTable [Char.ofNat 0x01]
        = some [dquote, bslash, 'u', lbrace, '0', '1', rbrace, dquote]
      ∧ Escape emptyTable [Char.ofNat 0x202E, 'R']
        = some [dquote, bslash, 'u', lbrace, '2', '0', '2', 'e', rbrace, 'R', dquote] := by
  decide

/-! ## The claims -/

/-- Claim C1: round trip. For every string `s` (any sequence of Unicode scalar values,
the empty one included) `Escape` returns a string and `Unescape` of it returns exactly
`s` with no error, for every `strconv.IsPrint` table that agrees with the `unicode`
tables. -/
theorem escape_unescape_round_trip (tbl : Tables) (htbl : TablesAgree tbl) (s : Str) :
    ∃ out, Escape tbl s = some out ∧ Unescape out = .ok s := by
  unfold Escape
  simp only [classify_eq, Bool.false_or, Bool.true_and]
  cases hq : s.any (quoteTrigger tbl) with
  | false =>
    refine ⟨s, by simp, ?_⟩
    exact unescape_of_no_quotes s (not_mem_of_all_false _ _ (quoteTrigger_squote tbl) s hq)
      (not_mem_of_all_false _ _ (quoteTrigger_dquote tbl) s hq)
  | true =>
    cases hb : s.any (singleQuoteBlocker tbl) with
    | false =>
      refine ⟨squote :: s ++ [squote], by simp, ?_⟩
      exact unescape_of_single_quoted s (not_mem_of_all_false _ _ (singleQuoteBlocker_squote tbl) s hb)
    | true =>
      obtain ⟨body, hbody, hrun⟩ := renderLoop_spec tbl htbl s [dquote]
      refine ⟨[dquote] ++ body ++ [dquote], by simp [hbody], ?_⟩
      exact unescape_of_rendered body s hrun

theorem escape_unescape_round_trip_witness :
    TablesAgree emptyTable
      ∧ ∃ out, Escape emptyTable [dquote, Char.ofNat 0x202E, 'R', squote, Char.ofNat 0x09, bslash]
            = some out
          ∧ Unescape out = .ok [dquote, Char.ofNat 0x202E, 'R', squote, Char.ofNat 0x09, bslash] :=
  ⟨tablesAgree_emptyTable, escape_unescape_round_trip emptyTable tablesAgree_emptyTable _⟩

/-- Claim C2: identity on bare words. A string with none of the code points `'`, `\`,
`"`, space, `&` and no whitespace, separator or Other code point is returned unmodified
by `Escape`. -/
theorem escape_bare_word (tbl : Tables) (s : Str)
    (h : ∀ c ∈ s, quoteTrigger tbl c = false) : Escape tbl s = some s := by
  have ha : s.any (quoteTrigger tbl) = false := by
    rw [List.any_eq_false]; intro c hc; simp [h c hc]
  unfold Escape
  simp only [classify_eq, ha]
  rfl

theorem escape_bare_word_witness :
    (∀ c ∈ ['東', '方', dollar, btick, 'x'], quoteTrigger sampleTable c = false)
      ∧ Escape sampleTable ['東', '方', dollar, btick, 'x']
        = some ['東', '方', dollar, btick, 'x'] :=
  ⟨by decide, escape_bare_word sampleTable _ (by decide)⟩

/-- Claim C3: minimal quoting. `Escape s` is `s` wrapped verbatim in single quotes
exactly when `s` holds a code point that needs quoting and none that rules single quotes
out; when it holds both, the output starts and ends with a double quote. -/
theorem escape_minimal_quoting (tbl : Tables) (htbl : TablesAgree tbl) (s : Str) :
    (Escape tbl s = some (squote :: s ++ [squote])
        ↔ ((∃ c ∈ s, quoteTrigger tbl c = true) ∧ ∀ c ∈ s, singleQuoteBlocker tbl c = false))
      ∧ ((∃ c ∈ s, quoteTrigger tbl c = true) → (∃ c ∈ s, singleQuoteBlocker tbl c = true) →
          ∃ body, Escape tbl s = some (dquote :: body ++ [dquote])) := by
  have hq1 : (∃ c ∈ s, quoteTrigger tbl c = true) ↔ s.any (quoteTrigger tbl) = true := by
    rw [List.any_eq_true]
  have hb1 : (∃ c ∈ s, singleQuoteBlocker tbl c = true) ↔ s.any (singleQuoteBlocker tbl) = true := by
    rw [List.any_eq_true]
  have hb0 : (∀ c ∈ s, singleQuoteBlocker tbl c = false) ↔ s.any (singleQuoteBlocker tbl) = false := by
    rw [List.any_eq_false]; simp
  rw [hq1, hb1, hb0]
  unfold Escape
  simp only [classify_eq, Bool.false_or, Bool.true_and]
  cases hq : s.any (quoteTrigger tbl) with
  | false =>
    simp only [Bool.not_false, if_true, Option.some.injEq, Bool.false_eq_true, false_and,
      iff_false, false_implies, and_true]
    intro h
    have := congrArg List.length h
    simp only [List.cons_append, List.length_cons, List.length_append, List.length_nil] at this
    omega
  | true =>
    cases hb : s.any (singleQuoteBlocker tbl) with
    | false => simp
    | true =>
      obtain ⟨body, hbody, -⟩ := renderLoop_spec tbl htbl s [dquote]
      have hd : dquote ≠ squote := by decide
      simp [hbody, hd]

theorem escape_minimal_quoting_witness :
    TablesAgree sampleTable
      ∧ (Escape sampleTable ['a', space, Char.ofNat 0x378]
            = some (squote :: ['a', space, Char.ofNat 0x378] ++ [squote])
          ↔ ((∃ c ∈ ['a', space, Char.ofNat 0x378], quoteTrigger sampleTable c = true)
            ∧ ∀ c ∈ ['a', space, Char.ofNat 0x378], singleQuoteBlocker sampleTable c = false))
      ∧ ((∃ c ∈ ['a', space, Char.ofNat 0x378], quoteTrigger sampleTable c = true) →
          (∃ c ∈ ['a', space, Char.ofNat 0x378], singleQuoteBlocker sampleTable c = true) →
          ∃ body, Escape sampleTable ['a', space, Char.ofNat 0x378]
            = some (dquote :: body ++ [dquote])) :=
  ⟨tablesAgree_sampleTable,
    escape_minimal_quoting sampleTable tablesAgree_sampleTable ['a', space, Char.ofNat 0x378]⟩

/-- Claim C4: trailing backslash inside double quotes. On the ASCII input `"e\` the
code returns the "invalid backslash escape" error at offset 2; on the input `"é\`, whose
byte length exceeds its number of code points, the index runs past the end of the rune
slice and the call panics instead of returning that error. -/
theorem unescape_trailing_backslash_panics :
    Unescape [dquote, 'e', bslash] = .error (.invalidBackslashEscape 2)
      ∧ Unescape [dquote, 'é', bslash] = .panic := by
  decide

/-- Claim C5: Unicode escape decoding. For every scalar value `v` and every string `h`
of 1 to 8 hexadecimal digits of either case whose value is `v`, `Unescape` of
`"\u`, opening brace, `h`, closing brace, `"` returns the one-code-point string `v`; and
the scan resumes after the closing brace: two escapes in a row, 6771 and 65b9, decode to
the two code points U+6771 U+65B9. -/
theorem unescape_unicode_escape (h : Str) (v : Char) (hlen1 : 1 ≤ h.length)
    (hlen8 : h.length ≤ 8) (hhex : ∀ c ∈ h, c ∈ hexChars) (hval : hexValue h = v.toNat) :
    Unescape (dquote :: bslash :: 'u' :: lbrace :: h ++ [rbrace, dquote]) = .ok [v]
      ∧ Unescape (dquote :: bslash :: 'u' :: lbrace :: ['6', '7', '7', '1']
            ++ rbrace :: bslash :: 'u' :: lbrace :: ['6', '5', 'b', '9'] ++ [rbrace, dquote])
          = .ok [Char.ofNat 0x6771, Char.ofNat 0x65B9] := by
  refine ⟨?_, by decide⟩
  have hn := length_le_utf8Len (dquote :: bslash :: 'u' :: lbrace :: h ++ [rbrace, dquote])
  simp only [List.cons_append, List.length_cons, List.length_append] at hn
  rw [Unescape_eq_run]
  simp only [List.cons_append]
  rw [run_unq_dquote, run_dq_unicode_hex _ _ h _ _ v (by omega) hlen8 hhex hval, run_dq_close,
    run_nil]
  rfl

theorem unescape_unicode_escape_witness :
    Unescape (dquote :: bslash :: 'u' :: lbrace :: ['0', '0', '0', 'E', '9'] ++ [rbrace, dquote])
      = .ok ['é'] :=
  (unescape_unicode_escape ['0', '0', '0', 'E', '9'] 'é' (by decide) (by decide) (by decide)
    (by decide)).1

/-- Claim C6: escape resolution table in double quotes. For `p` without `'`, `"`, `\`
and any code point `c`, `Unescape` of `"`, `p`, `\`, `c`, `"` returns `p` followed by the
resolved code point when `c` is in the resolution table, and fails with "invalid escape"
at offset `length p + 2` when `c` is neither in the table nor `u`. -/
theorem unescape_escape_table (p : Str) (c : Char) (_h1 : squote ∉ p) (h2 : dquote ∉ p)
    (h3 : bslash ∉ p) :
    (∀ r, (c, r) ∈ resolutionTable →
        Unescape (dquote :: p ++ [bslash, c, dquote]) = .ok (p ++ [r]))
      ∧ (c ∉ resolutionTable.map Prod.fst → c ≠ 'u' →
        Unescape (dquote :: p ++ [bslash, c, dquote])
          = .error (.invalidEscape (p.length + 2))) := by
  have hn := length_le_utf8Len (dquote :: (p ++ [bslash, c, dquote]))
  simp only [List.length_cons, List.length_append, List.length_nil] at hn
  have hrun : Unescape (dquote :: p ++ [bslash, c, dquote])
      = run (utf8Len (dquote :: (p ++ [bslash, c, dquote]))) (p.length + 1)
          [bslash, c, dquote] false true p := by
    rw [Unescape_eq_run]
    simp only [List.cons_append]
    rw [run_unq_dquote, run_dq_segment _ p _ h2 h3]
    simp only [List.nil_append]
    congr 1; omega
  constructor
  · intro r hr
    have hs := simpleEscape_of_mem_table (c, r) hr
    rw [hrun, run_dq_simple _ _ c r _ _ (by omega) hs, run_dq_close, run_nil]
  · intro hc hu
    rw [hrun, run_dq_invalid _ _ c _ _ (by omega) hu (simpleEscape_none c hc)]

theorem unescape_escape_table_witness :
    Unescape (dquote :: ['x', 'é'] ++ [bslash, 'n', dquote]) = .ok (['x', 'é'] ++ [Char.ofNat 0x0A])
      ∧ Unescape (dquote :: ['x', 'é'] ++ [bslash, 'q', dquote]) = .error (.invalidEscape 4) :=
  ⟨(unescape_escape_table ['x', 'é'] 'n' (by decide) (by decide) (by decide)).1 _ (by decide),
   (unescape_escape_table ['x', 'é'] 'q' (by decide) (by decide) (by decide)).2 (by decide)
     (by decide)⟩

/-- Claim C7: single quotes admit no escapes. For every `t` without `'`, `Unescape` of
`t` between single quotes returns `t` verbatim. -/
theorem unescape_single_quoted (t : Str) (h : squote ∉ t) :
    Unescape (squote :: t ++ [squote]) = .ok t :=
  unescape_of_single_quoted t h

theorem unescape_single_quoted_witness :
    squote ∉ [bslash, 'u', lbrace, '4', '1', rbrace, dquote, dollar, bslash]
      ∧ Unescape (squote :: [bslash, 'u', lbrace, '4', '1', rbrace, dquote, dollar, bslash]
          ++ [squote])
        = .ok [bslash, 'u', lbrace, '4', '1', rbrace, dquote, dollar, bslash] :=
  ⟨by decide, unescape_single_quoted _ (by decide)⟩

/-- Claim C8: unquoted text decodes to itself. For every `s` with neither `'` nor `"`,
`Unescape s` returns `s` unchanged. -/
theorem unescape_unquoted (s : Str) (h1 : squote ∉ s) (h2 : dquote ∉ s) :
    Unescape s = .ok s :=
  unescape_of_no_quotes s h1 h2

theorem unescape_unquoted_witness :
    squote ∉ ['a', bslash, 'n', dollar] ∧ dquote ∉ ['a', bslash, 'n', dollar]
      ∧ Unescape ['a', bslash, 'n', dollar] = .ok ['a', bslash, 'n', dollar] :=
  ⟨by decide, by decide, unescape_unquoted _ (by decide) (by decide)⟩

/-- Claim C9: mnemonic fidelity. `Escape` of each of the eight control characters U+0007,
U+0008, U+000B, U+000C, U+000A, U+000D, U+0009, U+001B alone is the four-character string
double quote, backslash, mnemonic letter (a, b, v, f, n, r, t, e), double quote. -/
theorem escape_mnemonics (tbl : Tables) :
    Escape tbl [Char.ofNat 0x07] = some [dquote, bslash, 'a', dquote]
      ∧ Escape tbl [Char.ofNat 0x08] = some [dquote, bslash, 'b', dquote]
      ∧ Escape tbl [Char.ofNat 0x0B] = some [dquote, bslash, 'v', dquote]
      ∧ Escape tbl [Char.ofNat 0x0C] = some [dquote, bslash, 'f', dquote]
      ∧ Escape tbl [Char.ofNat 0x0A] = some [dquote, bslash, 'n', dquote]
      ∧ Escape tbl [Char.ofNat 0x0D] = some [dquote, bslash, 'r', dquote]
      ∧ Escape tbl [Char.ofNat 0x09] = some [dquote, bslash, 't', dquote]
      ∧ Escape tbl [Char.ofNat 0x1B] = some [dquote, bslash, 'e', dquote] :=
  ⟨rfl, rfl, rfl, rfl, rfl, rfl, rfl, rfl⟩

/-- Claim C10, as stated, fails: `Escape` of `cash $ money` is not the double-quoted
string with the dollar sign preceded by a backslash. -/
theorem escape_cash_money_not_double_quoted :
    Escape emptyTable cashMoney
      ≠ some (dquote :: "cash ".toList ++ bslash :: "$ money".toList ++ [dquote]) := by
  decide

/-- Claim C10, amended: `Escape` of `cash $ money` is that text, unchanged, between
single quotes; the dollar sign is preceded by a backslash on the double-quote path only,
as in `Escape` of `cash $ money` followed by a tab. -/
theorem escape_cash_money (tbl : Tables) :
    Escape tbl cashMoney = some (squote :: cashMoney ++ [squote])
      ∧ Escape tbl (cashMoney ++ [Char.ofNat 0x09])
        = some (dquote :: "cash ".toList ++ bslash :: "$ money".toList
            ++ [bslash, 't', dquote]) :=
  ⟨rfl, rfl⟩


/-- Claim C11, as stated, fails: `Unescape` of the six-character input `"\u`, opening
brace, closing brace, `"` does not fail with an invalid code point. -/
theorem unescape_empty_payload_not_rejected :
    isInvalidCodePoint (Unescape [dquote, bslash, 'u', lbrace, rbrace, dquote]) = false := by
  decide

/-- Claim C11, amended: the empty hex payload is padded to eight zeros and accepted;
`Unescape` of `"\u`, opening brace, closing brace, `"` returns the one-code-point string
U+0000. -/
theorem unescape_empty_payload :
    Unescape [dquote, bslash, 'u', lbrace, rbrace, dquote] = .ok [Char.ofNat 0] := by
  decide

/-- Claim C12, as stated, fails: for U+00A0, U+0001 and U+E0001 the escape formatter
does not write the hexadecimal value without leading zeros. -/
theorem escapeUnicode_pads_with_zeros :
    escapeUnicode emptyTable (Char.ofNat 0xA0)
        ≠ some (bslash :: 'u' :: lbrace :: (minimalHex 0xA0 ++ [rbrace]))
      ∧ escapeUnicode emptyTable (Char.ofNat 0x01)
        ≠ some (bslash :: 'u' :: lbrace :: (minimalHex 0x01 ++ [rbrace]))
      ∧ escapeUnicode emptyTable (Char.ofNat 0xE0001)
        ≠ some (bslash :: 'u' :: lbrace :: (minimalHex 0xE0001 ++ [rbrace])) := by
  decide

/-- Claim C12, amended: for every whitespace, separator or Other code point `c` (the
unassigned ones included where the tables count them) other than the plain space and the
eight mnemonic control characters, `escapeUnicode c` is `\u`, an opening brace, a string of
lowercase hexadecimal digits and a closing brace; the digits have the value of `c` and a
fixed width, zero padded: 2 below U+0020 and for U+007F, 4 for the other code points up to
U+FFFF and 8 above. -/
theorem escapeUnicode_fixed_width (tbl : Tables) (htbl : TablesAgree tbl) (c : Char)
    (hne : isSeparatorOrOther tbl c = true) (hsp : c ≠ space) (hm : c ∉ mnemonicControls) :
    ∃ hex, escapeUnicode tbl c = some (bslash :: 'u' :: lbrace :: (hex ++ [rbrace]))
      ∧ hex.length = hexWidth c
      ∧ (∀ d ∈ hex, d ∈ lowerHexChars)
      ∧ hexValue hex = c.toNat :=
  ⟨hexFixed (hexWidth c) c.toNat,
    escapeUnicode_hex_form tbl htbl c ((needsEscape_eq tbl c).trans hne) hsp hm,
    hexFixed_length _ _, hexFixed_lower _ _, hexValue_hexFixed _ _ (hexWidth_le c).2⟩

theorem escapeUnicode_fixed_width_witness :
    TablesAgree sampleTable
      ∧ ∃ hex, escapeUnicode sampleTable (Char.ofNat 0x378)
            = some (bslash :: 'u' :: lbrace :: (hex ++ [rbrace]))
          ∧ hex.length = hexWidth (Char.ofNat 0x378)
          ∧ (∀ d ∈ hex, d ∈ lowerHexChars)
          ∧ hexValue hex = (Char.ofNat 0x378).toNat :=
  ⟨tablesAgree_sampleTable,
    escapeUnicode_fixed_width sampleTable tablesAgree_sampleTable (Char.ofNat 0x378)
      (by decide) (by decide) (by decide)⟩

/-- Claim C13: invalid code points are rejected. For a payload `h` of 1 to 8 hex digits
whose value is a surrogate or exceeds 10FFFF, and for a payload `h` without closing brace
that holds a code point that is no hex digit, `Unescape` of `"\u`, opening brace, `h`,
closing brace, `"` fails with an invalid escape fragment error. -/
theorem unescape_invalid_code_point (h : Str) :
    (1 ≤ h.length → h.length ≤ 8 → (∀ c ∈ h, c ∈ hexChars) →
        ((0xD800 ≤ hexValue h ∧ hexValue h ≤ 0xDFFF) ∨ 0x10FFFF < hexValue h) →
        isInvalidCodePoint
          (Unescape (dquote :: bslash :: 'u' :: lbrace :: h ++ [rbrace, dquote])) = true)
      ∧ (rbrace ∉ h → (∃ c ∈ h, c ∉ hexChars) →
        isInvalidCodePoint
          (Unescape (dquote :: bslash :: 'u' :: lbrace :: h ++ [rbrace, dquote])) = true) := by
  constructor
  · intro _ hlen hhex hv
    have hb : rbrace ∉ h := fun hm => (hexChars_facts _ (hhex _ hm)).2.2 rfl
    rw [unescape_unicode_payload h hb, parseUnicodeSeq_fragment 2 h [dquote] hb,
      UnquoteChar_invalid h hlen hhex hv]
    rfl
  · intro hb ⟨c, hc, hn⟩
    have hf : ∃ c ∈ padFragment h, unhex c = none :=
      ⟨c, List.mem_append_right _ hc, unhex_none_of_not_hex c hn⟩
    rw [unescape_unicode_payload h hb, parseUnicodeSeq_fragment 2 h [dquote] hb]
    rcases UnquoteChar_nonhex _ hf with hu | ⟨v, tail, hu, ht⟩
    · rw [hu]; rfl
    · rw [hu]
      simp only [ne_eq, ht, not_false_eq_true, if_true]
      rfl

theorem unescape_invalid_code_point_witness :
    isInvalidCodePoint
        (Unescape (dquote :: bslash :: 'u' :: lbrace :: ['D', '8', '0', '0'] ++ [rbrace, dquote]))
        = true
      ∧ isInvalidCodePoint
        (Unescape (dquote :: bslash :: 'u' :: lbrace :: ['1', '1', '0', '0', '0', '0']
          ++ [rbrace, dquote])) = true
      ∧ isInvalidCodePoint
        (Unescape (dquote :: bslash :: 'u' :: lbrace :: ['4', 'g', 'é'] ++ [rbrace, dquote]))
        = true :=
  ⟨(unescape_invalid_code_point ['D', '8', '0', '0']).1 (by decide) (by decide) (by decide)
      (by decide),
   (unescape_invalid_code_point ['1', '1', '0', '0', '0', '0']).1 (by decide) (by decide)
      (by decide) (by decide),
   (unescape_invalid_code_point ['4', 'g', 'é']).2 (by decide) ⟨'g', by decide, by decide⟩⟩

/-- Claim C14: unterminated quotes are accepted. For `t` without `"` and `\`,
`Unescape` of `"` followed by `t` returns `t`; for `t` without `'`, `Unescape` of `'`
followed by `t` returns `t`. -/
theorem unescape_unterminated_quotes (t : Str) :
    (dquote ∉ t → bslash ∉ t → Unescape (dquote :: t) = .ok t)
      ∧ (squote ∉ t → Unescape (squote :: t) = .ok t) := by
  constructor
  · intro h1 h2
    have h := run_dq_segment (utf8Len (dquote :: t)) t [] h1 h2 (0 + 1) []
    simp only [List.append_nil, List.nil_append] at h
    rw [Unescape_eq_run, run_unq_dquote, h, run_nil]
  · intro h1
    have h := run_sq_segment (utf8Len (squote :: t)) t [] false h1 (0 + 1) []
    simp only [List.append_nil, List.nil_append] at h
    rw [Unescape_eq_run, run_unq_squote, h, run_nil]

theorem unescape_unterminated_quotes_witness :
    Unescape (dquote :: ['a', 'b', squote, 'c']) = .ok ['a', 'b', squote, 'c']
      ∧ Unescape (squote :: ['a', bslash, dquote]) = .ok ['a', bslash, dquote] :=
  ⟨(unescape_unterminated_quotes ['a', 'b', squote, 'c']).1 (by decide) (by decide),
   (unescape_unterminated_quotes ['a', bslash, dquote]).2 (by decide)⟩

/-- Claim C15: shell safety. `Escape` returns `$HOME`, `a;b`, `a|b`, a lone backtick and
`*` unchanged as bare words, although each holds a character the shell treats specially
when it is not quoted; on the double-quote path the dollar sign does get its backslash. -/
theorem escape_leaves_shell_specials_bare (tbl : Tables) :
    Escape tbl "$HOME".toList = some "$HOME".toList
      ∧ Escape tbl "a;b".toList = some "a;b".toList
      ∧ Escape tbl "a|b".toList = some "a|b".toList
      ∧ Escape tbl [btick] = some [btick]
      ∧ Escape tbl "*".toList = some "*".toList
      ∧ (∀ c ∈ [dollar, ';', '|', btick, '*'], c ∈ shellSpecial)
      ∧ Escape tbl ("$HOME".toList ++ [Char.ofNat 0x09])
          = some (dquote :: bslash :: "$HOME".toList ++ [bslash, 't', dquote]) :=
  ⟨rfl, rfl, rfl, rfl, rfl, by decide, rfl⟩

/-- Claim C16, as stated, fails: the payload `000000041` of nine hex digits leaves the
tail `1` after the eight digits are read, and `Unescape` returns the error of the
residue check. -/
theorem residue_check_reached :
    Unescape (dquote :: bslash :: 'u' :: lbrace :: "000000041".toList ++ [rbrace, dquote])
      = .error (.fragmentTail "000000041".toList 13) := by
  decide

/-- Claim C16, amended: for a payload of at most 8 bytes the tail is empty and
`parseUnicodeSeq` never returns the error of the residue check; every longer payload
whose first 8 code points are hex digits of a valid scalar value leaves a non-empty tail
and gets exactly that error. -/
theorem residue_check_reachability (i : Nat) (rest : Str) :
    (∀ h : Str, rbrace ∉ h → utf8Len h ≤ 8 → ∀ (f : Str) (j : Nat),
        parseUnicodeSeq i ('u' :: lbrace :: (h ++ rbrace :: rest)) ≠ .error (.fragmentTail f j))
      ∧ (∀ h8 e : Str, h8.length = 8 → (∀ c ∈ h8, c ∈ hexChars) →
          (hexValue h8 < 0xD800 ∨ (0xDFFF < hexValue h8 ∧ hexValue h8 ≤ 0x10FFFF)) →
          e ≠ [] → rbrace ∉ e →
          parseUnicodeSeq i ('u' :: lbrace :: ((h8 ++ e) ++ rbrace :: rest))
            = .error (.fragmentTail (h8 ++ e) (i + 2 + (h8 ++ e).length))) := by
  constructor
  · intro h hb hl f j
    rw [parseUnicodeSeq_fragment i h rest hb]
    cases hu : UnquoteChar (padFragment h) with
    | none => simp
    | some r =>
      obtain ⟨v, tail⟩ := r
      have := UnquoteChar_tail_nil h hl v tail hu
      simp [this]
  · intro h8 e hlen hhex hv he hb
    have hb8 : rbrace ∉ h8 ++ e := by
      intro hm
      rcases List.mem_append.mp hm with hm | hm
      · exact (hexChars_facts _ (hhex _ hm)).2.2 rfl
      · exact hb hm
    obtain ⟨hp, hu⟩ := UnquoteChar_long h8 e hlen hhex hv
    rw [parseUnicodeSeq_fragment i (h8 ++ e) rest hb8, hp, hu]
    simp only [ne_eq, he, not_false_eq_true, if_true]

theorem residue_check_reachability_witness :
    (∀ (f : Str) (j : Nat),
        parseUnicodeSeq 2 ('u' :: lbrace :: (['0', '0', '4', '1', 'z'] ++ rbrace :: [dquote]))
          ≠ .error (.fragmentTail f j))
      ∧ parseUnicodeSeq 2
          ('u' :: lbrace :: (("00000004".toList ++ ['1']) ++ rbrace :: [dquote]))
          = .error (.fragmentTail ("00000004".toList ++ ['1'])
              (2 + 2 + ("00000004".toList ++ ['1']).length)) :=
  ⟨(residue_check_reachability 2 [dquote]).1 ['0', '0', '4', '1', 'z'] (by decide) (by decide),
   (residue_check_reachability 2 [dquote]).2 "00000004".toList ['1'] (by decide) (by decide)
     (by decide) (by decide) (by decide)⟩

/-- Claim C17: word joining. When the scan of `a` reaches the end of `a` in unquoted mode
and `Unescape b` succeeds, `Unescape (a ++ b)` succeeds and is `Unescape a` followed by
`Unescape b`; the input `"\\"` followed by `'""'` decodes to a backslash and two double
quotes. -/
theorem unescape_word_joining (a b rb : Str) (st : ScanState) (ha : scanEnd a = some st)
    (hs : st.inSingleQuote = false) (hd : st.inDoubleQuote = false)
    (hb : Unescape b = .ok rb) :
    (Unescape a = .ok st.res ∧ Unescape (a ++ b) = .ok (st.res ++ rb))
      ∧ Unescape ([dquote, bslash, bslash, dquote] ++ [squote, dquote, dquote, squote])
          = .ok [bslash, dquote, dquote] :=
  ⟨unescape_join a b rb st ha hs hd hb, by decide⟩

theorem unescape_word_joining_witness :
    scanEnd [dquote, 'é', bslash, 'n', dquote, 'x']
        = some ⟨6, [], false, false, ['é', Char.ofNat 0x0A, 'x']⟩
      ∧ Unescape [squote, dquote, squote, bslash] = .ok [dquote, bslash]
      ∧ Unescape ([dquote, 'é', bslash, 'n', dquote, 'x'] ++ [squote, dquote, squote, bslash])
        = .ok (['é', Char.ofNat 0x0A, 'x'] ++ [dquote, bslash]) :=
  ⟨by decide, by decide,
    (unescape_word_joining [dquote, 'é', bslash, 'n', dquote, 'x']
      [squote, dquote, squote, bslash] [dquote, bslash]
      ⟨6, [], false, false, ['é', Char.ofNat 0x0A, 'x']⟩ (by decide) rfl rfl (by decide)).1.2⟩

/-- Claim C18: the short-circuit of the classification loop is sound. The flags computed
with the `break` equal the flags computed over every code point, and `Escape` returns
the same output with and without the `break`. -/
theorem classify_short_circuit_sound (tbl : Tables) (s : Str) :
    classify tbl s (false, true) = classifyAll tbl s (false, true)
      ∧ Escape tbl s = EscapeNoBreak tbl s := by
  have h : classify tbl s (false, true) = classifyAll tbl s (false, true) := by
    rw [classify_eq, classifyAll_eq]
  refine ⟨h, ?_⟩
  unfold Escape EscapeNoBreak
  rw [h]

/-- Claim C19: mutual exclusion of the quoting modes. In every state the loop of
`Unescape` reaches on any input, the flags `inSingleQuote` and `inDoubleQuote` are not
both true. -/
theorem unescape_modes_exclusive (s : Str) (k : Nat) (st : ScanState)
    (h : stepN (utf8Len s) k (initState s) = some st) :
    (st.inSingleQuote && st.inDoubleQuote) = false := by
  have key : ∀ (k : Nat) (st0 : ScanState),
      (st0.inSingleQuote && st0.inDoubleQuote) = false →
      stepN (utf8Len s) k st0 = some st →
      (st.inSingleQuote && st.inDoubleQuote) = false := by
    intro k
    induction k with
    | zero =>
      intro st0 h0 h1
      simp only [stepN, Option.some.injEq] at h1
      rw [← h1]; exact h0
    | succ k ih =>
      intro st0 h0 h1
      simp only [stepN] at h1
      cases hs : step (utf8Len s) st0 with
      | ret o => rw [hs] at h1; cases h1
      | goto st1 =>
        rw [hs] at h1
        exact ih st1 (step_exclusive _ _ _ hs h0) h1
  exact key k (initState s) rfl h

theorem unescape_modes_exclusive_witness :
    stepN (utf8Len [squote, dquote, squote, dquote, 'a']) 4
        (initState [squote, dquote, squote, dquote, 'a'])
        = some ⟨4, ['a'], false, true, [dquote]⟩
      ∧ ((⟨4, ['a'], false, true, [dquote]⟩ : ScanState).inSingleQuote
          && (⟨4, ['a'], false, true, [dquote]⟩ : ScanState).inDoubleQuote) = false :=
  ⟨by decide, unescape_modes_exclusive [squote, dquote, squote, dquote, 'a'] 4
    ⟨4, ['a'], false, true, [dquote]⟩ (by decide)⟩

/-- Claim C20: linear output bound. For every string `s` of `n` code points `Escape s`
has at most `12 * n + 2` code points. -/
theorem escape_linear_bound (tbl : Tables) (htbl : TablesAgree tbl) (s : Str) :
    ∃ out, Escape tbl s = some out ∧ out.length ≤ 12 * s.length + 2 := by
  unfold Escape
  simp only [classify_eq, Bool.false_or, Bool.true_and]
  cases hq : s.any (quoteTrigger tbl) with
  | false => exact ⟨s, by simp, by omega⟩
  | true =>
    cases hb : s.any (singleQuoteBlocker tbl) with
    | false =>
      refine ⟨squote :: s ++ [squote], by simp, ?_⟩
      simp only [List.cons_append, List.length_cons, List.length_append, List.length_nil]
      omega
    | true =>
      obtain ⟨body, hbody, hl⟩ := renderLoop_length tbl htbl s [dquote]
      refine ⟨[dquote] ++ body ++ [dquote], by simp [hbody], ?_⟩
      simp only [List.cons_append, List.length_cons, List.length_append, List.length_nil,
        List.nil_append]
      omega

theorem escape_linear_bound_witness :
    TablesAgree emptyTable
      ∧ ∃ out, Escape emptyTable [Char.ofNat 0xE0001, Char.ofNat 0x10FFFD] = some out
          ∧ out.length ≤ 12 * [Char.ofNat 0xE0001, Char.ofNat 0x10FFFD].length + 2 :=
  ⟨tablesAgree_emptyTable, escape_linear_bound emptyTable tablesAgree_emptyTable _⟩

end Turtlequote
